import Mathlib

/-!
encrypt-file: AES-256-CFB streaming file encryptor (`main.go`).

A shallow embedding of `main.go` together with the parts of the Go standard
library it drives (`aes.NewCipher`'s key-size check, `crypto/cipher`'s CFB
stream, `io.ReadFull`, `os.File.Read`/`Write`, `strings.TrimSuffix`).

* Byte slices are `List UInt8`; a Go `string` is its byte sequence.
* The AES block function is a parameter `aes : key → block → block`; nothing
  is assumed about it unless a theorem says so.
* The operating system is an explicit environment `Env`: the file system (a
  file is identified by its name), whether `os.Open`/`os.Create`/`Stat` fail,
  how many bytes each `Read` call transfers, which `Read`/`Write` calls fail,
  and the bytes `rand.Reader` supplies.  `encryptFile` and `decryptFile` take
  the two file names; when they are the same name, `os.Create` truncates the
  file that is being read, and the reads see what the writes put there.
* `printProgress` and the `fmt.Println` calls only print; they are left out.
* Loops carry a fuel argument; running out of fuel is the result `none`.  The
  loops of `XORKeyStream` and `io.ReadFull` compute a fuel that always
  suffices; the read-transform-write loop takes its fuel from the caller,
  and the theorems say how much suffices.
-/

namespace EncryptFile

abbrev Byte := UInt8

/-- Go: `const maxKeySize = 32`. -/
def maxKeySize : Nat := 32

/-- Go: `const bufferSize = 1024 * 1024`. -/
def bufferSize : Nat := 1024 * 1024

/-- Go: `aes.BlockSize`. -/
def BlockSize : Nat := 16

/-- Go: `make([]byte, n)`, a zeroed slice. -/
def make (n : Nat) : List Byte := List.replicate n 0

/-- Go's builtin `copy(dst, src)`: the content of `dst` afterwards; it copies
`min(len(dst), len(src))` bytes. -/
def copy (dst src : List Byte) : List Byte :=
  src.take dst.length ++ dst.drop src.length

/-- Go: `copy(dst[off:], src)`, the content of `dst` afterwards. -/
def copyAt (dst : List Byte) (off : Nat) (src : List Byte) : List Byte :=
  dst.take off ++ copy (dst.drop off) src

/-- Go: `processKey` (main.go 19-27). -/
def processKey (key : List Byte) : List Byte :=
  let keyBytes := key
  if keyBytes.length > maxKeySize then
    keyBytes.take maxKeySize
  else
    let paddedKey := make maxKeySize
    copy paddedKey keyBytes

/-- The operation named in an `*os.PathError`. -/
inductive Op
  | open
  | stat
  | read
  | write
  deriving DecidableEq

/-- The `error` values that can reach `encryptFile` and `decryptFile`. -/
inductive Error
  | EOF
  | ErrUnexpectedEOF
  | KeySizeError (k : Nat)
  | PathError (op : Op)
  deriving DecidableEq

/-- A block function, `cipher.Block.Encrypt` seen as a function of the source
block. -/
abbrev BlockFn := List Byte → List Byte

/-- Go: `aes.NewCipher`: only keys of 16, 24 or 32 bytes are accepted. -/
def NewCipher (aes : List Byte → BlockFn) (key : List Byte) : Except Error BlockFn :=
  let k := key.length
  if k = 16 ∨ k = 24 ∨ k = 32 then .ok (aes key) else .error (.KeySizeError k)

/-- Go: `type cfb struct` of crypto/cipher. -/
structure cfb where
  b : BlockFn
  next : List Byte
  out : List Byte
  outUsed : Nat
  decrypt : Bool

/-- Go: `newCFB` of crypto/cipher; `none` is its panic on an IV whose length
is not the block size. -/
def newCFB (block : BlockFn) (iv : List Byte) (decrypt : Bool) : Option cfb :=
  let blockSize := BlockSize
  if iv.length ≠ blockSize then none
  else
    some { b := block
           out := make blockSize
           next := copy (make blockSize) iv
           outUsed := blockSize
           decrypt := decrypt }

/-- Go: `cipher.NewCFBEncrypter`. -/
def NewCFBEncrypter (block : BlockFn) (iv : List Byte) : Option cfb :=
  newCFB block iv false

/-- Go: `cipher.NewCFBDecrypter`. -/
def NewCFBDecrypter (block : BlockFn) (iv : List Byte) : Option cfb :=
  newCFB block iv true

/-- Go: `subtle.XORBytes(dst, x, y)`: the `min(len(x), len(y))` bytes written. -/
def XORBytes (x y : List Byte) : List Byte :=
  List.zipWith (fun a b => a ^^^ b) x y

/-- One pass through the body of the `for len(src) > 0` loop of
`(*cfb).XORKeyStream`, called in place (`dst` and `src` are the same slice),
on a non-empty `src`: the stream's new state and the bytes written. -/
def cfb.segment (x : cfb) (src : List Byte) : cfb × List Byte :=
  -- if x.outUsed == len(x.out) { x.b.Encrypt(x.out, x.next); x.outUsed = 0 }
  let x := if x.outUsed = x.out.length then
    { x with out := copy x.out (x.b x.next), outUsed := 0 } else x
  -- if x.decrypt { copy(x.next[x.outUsed:], src) }
  let x := if x.decrypt then { x with next := copyAt x.next x.outUsed src } else x
  -- n := subtle.XORBytes(dst, src, x.out[x.outUsed:])
  let seg := XORBytes src (x.out.drop x.outUsed)
  let n := seg.length
  -- if !x.decrypt { copy(x.next[x.outUsed:], dst) }
  let x := if !x.decrypt then
    { x with next := copyAt x.next x.outUsed (seg ++ src.drop n) } else x
  -- x.outUsed += n
  ({ x with outUsed := x.outUsed + n }, seg)

/-- The `for len(src) > 0` loop of `(*cfb).XORKeyStream`: the stream's new
state and the bytes written. -/
def cfb.xorLoop : Nat → cfb → List Byte → Option (cfb × List Byte)
  | _, x, [] => some (x, [])
  | 0, _, _ :: _ => none
  | fuel + 1, x, p :: ps =>
    match x.segment (p :: ps) with
    | (x, seg) =>
      -- dst = dst[n:]; src = src[n:]
      match cfb.xorLoop fuel x ((p :: ps).drop seg.length) with
      | none => none
      | some (x, rest) => some (x, seg ++ rest)

/-- Go: `(*cfb).XORKeyStream(buf, buf)`: the new state and the new content of
`buf`. -/
def cfb.XORKeyStream (x : cfb) (src : List Byte) : Option (cfb × List Byte) :=
  x.xorLoop src.length src

/-- What the next `Read` system call does. -/
inductive ReadEvent
  | short (k : Nat)
  | fail
  deriving DecidableEq

/-- What the next `Write` system call does. -/
inductive WriteEvent
  | ok
  | fail (k : Nat)
  deriving DecidableEq

/-- An `io.Reader` over a byte sequence: the bytes not yet read and the
outcomes of the coming `Read` calls.  Once the list is used up every `Read`
fills the buffer as far as the data goes. -/
structure Reader where
  data : List Byte
  sched : List ReadEvent
  deriving DecidableEq

/-- One `Read(buf)` with `len(buf) = size` as `(*os.File).Read` does it: the
bytes `buf[:n]` and the error.  A successful read of non-empty data transfers
between 1 and `size` bytes; at the end of the data it is `0, io.EOF`. -/
def Reader.Read (r : Reader) (size : Nat) : Reader × List Byte × Option Error :=
  match r.sched with
  | .fail :: rest => ({ r with sched := rest }, [], some (.PathError .read))
  | sched =>
    if size = 0 then ({ r with sched := sched.tail }, [], none)
    else if r.data = [] then ({ r with sched := sched.tail }, [], some .EOF)
    else
      let k := match sched with
        | .short k :: _ => max k 1
        | _ => size
      let n := min k size
      ({ data := r.data.drop n, sched := sched.tail }, r.data.take n, none)

/-- The loop `for n < min && err == nil` of `io.ReadAtLeast`; `got` is
`buf[:n]`. -/
def readAtLeastLoop : Nat → Reader → Nat → List Byte → Option (Reader × List Byte × Option Error)
  | fuel, r, min, got =>
    if got.length < min then
      match fuel with
      | 0 => none
      | fuel + 1 =>
        -- nn, err = r.Read(buf[n:]); n += nn
        match r.Read (min - got.length) with
        | (r, chunk, none) => readAtLeastLoop fuel r min (got ++ chunk)
        | (r, chunk, some e) => some (r, got ++ chunk, some e)
    else some (r, got, none)

/-- Go: `io.ReadFull(r, buf)` with `len(buf) = size`, which is
`io.ReadAtLeast(r, buf, len(buf))`: the bytes read and the error. -/
def ReadFull (r : Reader) (size : Nat) : Option (Reader × List Byte × Option Error) :=
  match readAtLeastLoop size r size [] with
  | none => none
  | some (r, got, err) =>
    if got.length ≥ size then some (r, got, none)
    else if got.length > 0 ∧ err = some .EOF then some (r, got, some .ErrUnexpectedEOF)
    else some (r, got, err)

/-- Go: `generateIV` (main.go 30-36) over `rand.Reader`. -/
def generateIV (rand : Reader) : Option (Except Error (List Byte)) :=
  match ReadFull rand BlockSize with
  | none => none
  | some (_, _, some err) => some (.error err)
  | some (_, iv, none) => some (.ok iv)

/-- The file system: the content of each file that exists, by name. -/
abbrev FS := List (List Byte × List Byte)

/-- The content of the file `name`, `none` when there is no such file. -/
def FS.content (fs : FS) (name : List Byte) : Option (List Byte) :=
  fs.lookup name

/-- The file system in which the file `name` has content `c`. -/
def FS.put (fs : FS) (name c : List Byte) : FS :=
  (name, c) :: fs.filter (fun e => !(e.1 == name))

/-- The state of the operating system during a call: the files, and the
outcomes of the coming `Read` and `Write` calls on them. -/
structure Sys where
  fs : FS
  reads : List ReadEvent
  writes : List WriteEvent
  deriving DecidableEq

/-- An open `*os.File`: the file it names and its offset. -/
structure File where
  name : List Byte
  off : Nat
  deriving DecidableEq

/-- The reader a file handle is at this moment: the file's bytes from the
handle's offset on. -/
def File.reader (f : File) (s : Sys) : Reader :=
  { data := ((s.fs.content f.name).getD []).drop f.off, sched := s.reads }

/-- Go: `(*os.File).Read(buf)` with `len(buf) = size`: it reads the file as it
is now, from the handle's offset, and advances the offset. -/
def File.Read (f : File) (s : Sys) (size : Nat) : File × Sys × List Byte × Option Error :=
  match (f.reader s).Read size with
  | (r, chunk, err) =>
    ({ f with off := f.off + chunk.length }, { s with reads := r.sched }, chunk, err)

/-- Go: `io.ReadFull(f, buf)` on a file handle.  Nothing writes while it runs,
so its `Read` calls are those of the reader the handle is when it starts. -/
def File.ReadFull (f : File) (s : Sys) (size : Nat) :
    Option (File × Sys × List Byte × Option Error) :=
  match EncryptFile.ReadFull (f.reader s) size with
  | none => none
  | some (r, got, err) =>
    some ({ f with off := f.off + got.length }, { s with reads := r.sched }, got, err)

/-- The content of a file after `buf` is written at offset `off` (a gap past
the end is filled with zero bytes). -/
def writeAt (c : List Byte) (off : Nat) (buf : List Byte) : List Byte :=
  c.take off ++ List.replicate (off - c.length) 0 ++ buf ++ c.drop (off + buf.length)

/-- Go: `(*os.File).Write(buf)`: it writes at the handle's offset and advances
it; a failing call writes a prefix and returns an error. -/
def File.Write (f : File) (s : Sys) (buf : List Byte) : File × Sys × Option Error :=
  let c := (s.fs.content f.name).getD []
  match s.writes with
  | .fail k :: rest =>
    ({ f with off := f.off + (buf.take k).length },
     { s with fs := s.fs.put f.name (writeAt c f.off (buf.take k)), writes := rest },
     some (.PathError .write))
  | sched =>
    ({ f with off := f.off + buf.length },
     { s with fs := s.fs.put f.name (writeAt c f.off buf), writes := sched.tail },
     none)

/-- How a call ends: it returns an `error` (`none` is Go's `nil`) or
panics. -/
inductive Exit
  | returned (err : Option Error)
  | panicked
  deriving DecidableEq

/-- The read-transform-write loop, the same text in `encryptFile` (main.go
83-99) and `decryptFile` (main.go 141-157); `inp` and `out` are the handles
`in` and `out`. -/
def streamLoop : Nat → cfb → File → File → Sys → Option (Exit × Sys)
  | 0, _, _, _, _ => none
  | fuel + 1, stream, inp, out, s =>
    -- n, err := in.Read(buffer)
    match inp.Read s bufferSize with
    | (inp, s, chunk, err) =>
      -- if n > 0 { stream.XORKeyStream(buffer[:n], buffer[:n]); out.Write(buffer[:n]) }
      let body : Option (cfb × File × Sys × Option Error) :=
        if chunk.length > 0 then
          match stream.XORKeyStream chunk with
          | none => none
          | some (stream, buf) =>
            match out.Write s buf with
            | (out, s, werr) => some (stream, out, s, werr)
        else some (stream, out, s, none)
      match body with
      | none => none
      | some (_, _, s, some werr) => some (.returned (some werr), s)
      | some (stream, out, s, none) =>
        -- if err == io.EOF { break }; if err != nil { return err }
        if err = some .EOF then some (.returned none, s)
        else
          match err with
          | some e => some (.returned (some e), s)
          | none => streamLoop fuel stream inp out s

/-- What the operating system and the cipher library do during one call. -/
structure Env where
  aes : List Byte → BlockFn
  fs : FS
  openErr : Bool
  createErr : Bool
  statErr : Bool
  reads : List ReadEvent
  writes : List WriteEvent
  rand : Reader

/-- Go: `encryptFile` (main.go 45-103): how the call ends and the file system
it leaves.  `fuel` bounds the passes of the read-transform-write loop. -/
def encryptFile (fuel : Nat) (env : Env) (key inputFile outputFile : List Byte) :
    Option (Exit × FS) :=
  let s : Sys := { fs := env.fs, reads := env.reads, writes := env.writes }
  -- in, err := os.Open(inputFile)
  if env.openErr = true ∨ s.fs.content inputFile = none then
    some (.returned (some (.PathError .open)), s.fs)
  else
    let inp : File := { name := inputFile, off := 0 }
    -- out, err := os.Create(outputFile)
    if env.createErr = true then some (.returned (some (.PathError .open)), s.fs)
    else
      let s : Sys := { s with fs := s.fs.put outputFile [] }
      let out : File := { name := outputFile, off := 0 }
      -- fileInfo, err := in.Stat()
      if env.statErr = true then some (.returned (some (.PathError .stat)), s.fs)
      else
        match NewCipher env.aes (processKey key) with
        | .error err => some (.returned (some err), s.fs)
        | .ok block =>
          match generateIV env.rand with
          | none => none
          | some (.error err) => some (.returned (some err), s.fs)
          | some (.ok iv) =>
            -- _, err = out.Write(iv)
            match out.Write s iv with
            | (_, s, some err) => some (.returned (some err), s.fs)
            | (out, s, none) =>
              match NewCFBEncrypter block iv with
              | none => some (.panicked, s.fs)
              | some stream =>
                match streamLoop fuel stream inp out s with
                | none => none
                | some (exit, s) => some (exit, s.fs)

/-- Go: `decryptFile` (main.go 106-161): how the call ends and the file system
it leaves.  `fuel` bounds the passes of the read-transform-write loop. -/
def decryptFile (fuel : Nat) (env : Env) (key inputFile outputFile : List Byte) :
    Option (Exit × FS) :=
  let s : Sys := { fs := env.fs, reads := env.reads, writes := env.writes }
  -- in, err := os.Open(inputFile)
  if env.openErr = true ∨ s.fs.content inputFile = none then
    some (.returned (some (.PathError .open)), s.fs)
  else
    let inp : File := { name := inputFile, off := 0 }
    -- out, err := os.Create(outputFile)
    if env.createErr = true then some (.returned (some (.PathError .open)), s.fs)
    else
      let s : Sys := { s with fs := s.fs.put outputFile [] }
      let out : File := { name := outputFile, off := 0 }
      -- fileInfo, err := in.Stat()
      if env.statErr = true then some (.returned (some (.PathError .stat)), s.fs)
      else
        match NewCipher env.aes (processKey key) with
        | .error err => some (.returned (some err), s.fs)
        | .ok block =>
          -- io.ReadFull(in, iv)
          match inp.ReadFull s BlockSize with
          | none => none
          | some (_, s, _, some err) => some (.returned (some err), s.fs)
          | some (inp, s, iv, none) =>
            match NewCFBDecrypter block iv with
            | none => some (.panicked, s.fs)
            | some stream =>
              match streamLoop fuel stream inp out s with
              | none => none
              | some (exit, s) => some (exit, s.fs)

/-- The bytes of the Go string literal `"_encrypted"`. -/
def encryptedSuffix : List Byte := [95, 101, 110, 99, 114, 121, 112, 116, 101, 100]

/-- Go: `strings.HasSuffix`. -/
def HasSuffix (s suffix : List Byte) : Bool :=
  s.length ≥ suffix.length && s.drop (s.length - suffix.length) == suffix

/-- Go: `strings.TrimSuffix`. -/
def TrimSuffix (s suffix : List Byte) : List Byte :=
  if HasSuffix s suffix then s.take (s.length - suffix.length) else s

/-- Go: the choice of `outputFile` in `main` (main.go 175-187); `args` are the
positional arguments, at least two of them. -/
def outputFile (decryptMode : Bool) (args : List (List Byte)) : List Byte :=
  let inputFile := args.getD 1 []
  if args.length > 2 then args.getD 2 []
  else if decryptMode then TrimSuffix inputFile encryptedSuffix
  else inputFile ++ encryptedSuffix

/-! ## Definitions used to state and prove the properties -/

/-- The stream's buffers have the block size and the cursor is inside them. -/
def cfb.WF (x : cfb) : Prop :=
  x.next.length = BlockSize ∧ x.out.length = BlockSize ∧ x.outUsed ≤ BlockSize

/-- The refill step at the head of the loop body. -/
def cfb.refill (x : cfb) : cfb :=
  if x.outUsed = x.out.length then
    { x with out := copy x.out (x.b x.next), outUsed := 0 } else x

/-- One byte through the stream: the loop body of `XORKeyStream` on a
one-byte `src`. -/
def cfb.stepByte (x : cfb) (p : Byte) : cfb × Byte :=
  let x := x.refill
  let c := p ^^^ x.out.getD x.outUsed 0
  ({ x with next := x.next.set x.outUsed (if x.decrypt then p else c)
            outUsed := x.outUsed + 1 }, c)

/-- The stream run byte by byte. -/
def cfb.runBytes : cfb → List Byte → cfb × List Byte
  | x, [] => (x, [])
  | x, p :: ps =>
    let r := (x.stepByte p).1.runBytes ps
    (r.1, (x.stepByte p).2 :: r.2)

/-- The stream `newCFB` returns for an IV of the block size. -/
def cfb.init (block : BlockFn) (iv : List Byte) (decrypt : Bool) : cfb :=
  { b := block, next := iv, out := make BlockSize, outUsed := BlockSize, decrypt := decrypt }

/-- No coming `Read` call fails. -/
def readsOK (sched : List ReadEvent) : Prop := ReadEvent.fail ∉ sched

instance (sched : List ReadEvent) : Decidable (readsOK sched) := by
  unfold readsOK; infer_instance

/-- No coming `Read` call of the reader fails. -/
def Reader.noFail (r : Reader) : Prop := readsOK r.sched

instance (r : Reader) : Decidable r.noFail := by
  unfold Reader.noFail; infer_instance

/-- No coming `Write` call fails. -/
def writesOK (sched : List WriteEvent) : Prop := ∀ e ∈ sched, e = WriteEvent.ok

instance (sched : List WriteEvent) : Decidable (writesOK sched) := by
  unfold writesOK; infer_instance

/-- The operating system reports no failure: the files open, and no read and
no write on them fails. -/
def Env.ioOK (env : Env) : Prop :=
  env.openErr = false ∧ env.createErr = false ∧ env.statErr = false ∧
    readsOK env.reads ∧ writesOK env.writes

instance (env : Env) : Decidable env.ioOK := by
  unfold Env.ioOK; infer_instance

/-! ## Concrete inputs -/

/-- A small stand-in for the AES block function, used to run the code on
concrete inputs: an injective map of blocks that depends on the key. -/
def demoAES : List Byte → BlockFn :=
  fun key blk => (blk.map (fun b => b ^^^ key.headD 0)).reverse

/-- An environment in which nothing fails: the given files, the input read
with the given `Read` sizes, and `rand.Reader` supplying `randData`. -/
def demoEnv (fs : FS) (sizes : List Nat) (randData : List Byte) : Env :=
  { aes := demoAES
    fs := fs
    openErr := false
    createErr := false
    statErr := false
    reads := sizes.map .short
    writes := []
    rand := { data := randData, sched := [] } }

/-- The bytes of `"secret"`. -/
def secretKey : List Byte := [115, 101, 99, 114, 101, 116]

/-- The bytes of `"Secret"`, a passphrase other than `secretKey`. -/
def otherKey : List Byte := [83, 101, 99, 114, 101, 116]

/-- The bytes of `"hello world"`. -/
def helloWorld : List Byte := [104, 101, 108, 108, 111, 32, 119, 111, 114, 108, 100]

/-- Thirty-eight bytes of plaintext, more than two blocks. -/
def longPlain : List Byte := helloWorld ++ helloWorld ++ helloWorld ++ [33, 33, 33, 33, 33]

/-- Sixteen bytes for `rand.Reader` to supply. -/
def demoIV : List Byte := [16, 32, 48, 64, 80, 96, 112, 128, 144, 160, 176, 192, 208, 224, 240, 1]

/-- The 27 bytes `encryptFile` writes for `"hello world"` under `"secret"`
with `demoAES` and `demoIV`. -/
def demoContainer : List Byte :=
  [16, 32, 48, 64, 80, 96, 112, 128, 144, 160, 176, 192, 208, 224, 240, 1,
   26, 230, 255, 207, 220, 227, 164, 140, 129, 111, 119]

/-- The file name `"a.txt"`. -/
def plainName : List Byte := [97, 46, 116, 120, 116]

/-- The file name `"a.bin"`. -/
def containerName : List Byte := [97, 46, 98, 105, 110]

/-- The file name `"b.txt"`. -/
def outName : List Byte := [98, 46, 116, 120, 116]

/-- What `encryptFile` writes for `longPlain` under `"secret"` with `demoAES`
and the IV `demoIV`. -/
def longContainerA : List Byte :=
  [16, 32, 48, 64, 80, 96, 112, 128, 144, 160, 176, 192, 208, 224, 240, 1,
   26, 230, 255, 207, 220, 227, 164, 140, 129, 111, 119, 75, 86, 47, 63, 12, 95, 59, 51,
   87, 84, 96, 116, 151, 147, 187, 255, 143, 203, 227, 231, 5, 18, 181, 177, 153, 221, 173]

/-- What `encryptFile` writes for `longPlain` under `"secret"` with `demoAES`
and the IV `0 :: demoIV.take 15`. -/
def longContainerB : List Byte :=
  [0, 16, 32, 48, 64, 80, 96, 112, 128, 144, 160, 176, 192, 208, 224, 240,
   235, 246, 207, 223, 172, 243, 148, 156, 113, 127, 71, 91, 38, 63, 15, 28, 79, 11, 35,
   39, 68, 80, 100, 103, 131, 139, 239, 255, 219, 211, 247, 244, 227, 165, 129, 137, 173, 189]

/-! ## Slices and xor -/

theorem xor_cancel (a b : Byte) : (a ^^^ b) ^^^ b = a := by
  cases a with | mk a => cases b with | mk b =>
  show UInt8.mk ((a ^^^ b) ^^^ b) = UInt8.mk a
  rw [BitVec.xor_assoc, BitVec.xor_self, BitVec.xor_zero]

theorem copy_length (dst src : List Byte) : (copy dst src).length = dst.length := by
  simp only [copy, List.length_append, List.length_take, List.length_drop]
  omega

theorem copy_nil (dst : List Byte) : copy dst [] = dst := by
  simp [copy]

theorem copy_cons (a f : Byte) (as fs : List Byte) :
    copy (a :: as) (f :: fs) = f :: copy as fs := by
  simp [copy]

theorem copyAt_length (dst src : List Byte) (off : Nat) (h : off ≤ dst.length) :
    (copyAt dst off src).length = dst.length := by
  simp only [copyAt, List.length_append, List.length_take, copy_length, List.length_drop]
  omega

theorem copyAt_nil (dst : List Byte) (off : Nat) : copyAt dst off [] = dst := by
  simp [copyAt, copy_nil]

theorem copyAt_set (next : List Byte) (u : Nat) (f : Byte) (fs : List Byte)
    (h : u < next.length) :
    copyAt (next.set u f) (u + 1) fs = copyAt next u (f :: fs) := by
  induction next generalizing u with
  | nil => simp at h
  | cons a as ih =>
    cases u with
    | zero => simp [copyAt, copy]
    | succ u =>
      have := ih u (by simpa using h)
      simp only [copyAt] at this
      simp [copyAt, this]

theorem copyAt_take (next : List Byte) (u : Nat) (s : List Byte) :
    copyAt next u (s.take (next.length - u)) = copyAt next u s := by
  simp only [copyAt, copy, List.length_drop, List.take_take, List.length_take]
  congr 1
  congr 1
  · congr 1; omega
  · by_cases h : s.length ≤ next.length - u
    · rw [Nat.min_eq_right h]
    · have h1 : next.length - u ≤ s.length := by omega
      rw [Nat.min_eq_left h1, List.drop_eq_nil_of_le (by simp), List.drop_eq_nil_of_le (by simp; omega)]

theorem XORBytes_length (x y : List Byte) : (XORBytes x y).length = min x.length y.length := by
  simp [XORBytes]

theorem XORBytes_cons (p : Byte) (ps out : List Byte) (u : Nat) (h : u < out.length) :
    XORBytes (p :: ps) (out.drop u) = (p ^^^ out.getD u 0) :: XORBytes ps (out.drop (u + 1)) := by
  have hd : out.drop u = out.getD u 0 :: out.drop (u + 1) := by
    rw [List.getD_eq_getElem _ _ h]
    exact List.drop_eq_getElem_cons h
  rw [hd]
  rfl

theorem XORBytes_take (s y : List Byte) (k : Nat) (h : y.length ≤ k) :
    XORBytes (s.take k) y = XORBytes s y := by
  induction s generalizing y k with
  | nil => simp
  | cons a s ih =>
    cases y with
    | nil => simp [XORBytes]
    | cons b y =>
      cases k with
      | zero => simp at h
      | succ k =>
        have := ih y k (by simpa using h)
        simp only [XORBytes] at this
        simp [XORBytes, this]

theorem refill_WF (x : cfb) (h : x.WF) : x.refill.WF := by
  obtain ⟨h1, h2, h3⟩ := h
  unfold cfb.refill
  split
  · exact ⟨h1, by simp [copy_length, h2], by simp⟩
  · exact ⟨h1, h2, h3⟩

theorem refill_outUsed_lt (x : cfb) (h : x.WF) : x.refill.outUsed < BlockSize := by
  obtain ⟨h1, h2, h3⟩ := h
  unfold cfb.refill
  split
  · simp [BlockSize]
  · rename_i hne
    rw [h2] at hne
    show x.outUsed < BlockSize
    omega

theorem refill_of_lt (x : cfb) (h : x.outUsed < x.out.length) : x.refill = x := by
  unfold cfb.refill
  rw [if_neg (by omega)]

theorem refill_refill (x : cfb) (h : x.WF) : x.refill.refill = x.refill := by
  apply refill_of_lt
  rw [(refill_WF x h).2.1]
  exact refill_outUsed_lt x h

theorem stepByte_refill (x : cfb) (h : x.WF) (p : Byte) : x.refill.stepByte p = x.stepByte p := by
  unfold cfb.stepByte
  rw [refill_refill x h]

theorem runBytes_refill (x : cfb) (h : x.WF) (p : Byte) (ps : List Byte) :
    x.refill.runBytes (p :: ps) = x.runBytes (p :: ps) := by
  simp only [cfb.runBytes, stepByte_refill x h]

theorem stepByte_WF (x : cfb) (h : x.WF) (p : Byte) : (x.stepByte p).1.WF := by
  have hw := refill_WF x h
  have hlt := refill_outUsed_lt x h
  obtain ⟨h1, h2, _⟩ := hw
  refine ⟨?_, ?_, ?_⟩
  · simp [cfb.stepByte, h1]
  · simp [cfb.stepByte, h2]
  · simp only [cfb.stepByte]
    omega

theorem runBytes_WF (x : cfb) (h : x.WF) (s : List Byte) : (x.runBytes s).1.WF := by
  induction s generalizing x with
  | nil => exact h
  | cons p ps ih => exact ih _ (stepByte_WF x h p)

theorem runBytes_length (x : cfb) (s : List Byte) : (x.runBytes s).2.length = s.length := by
  induction s generalizing x with
  | nil => rfl
  | cons p ps ih => simp [cfb.runBytes, ih]

theorem runBytes_append (x : cfb) (a b : List Byte) :
    x.runBytes (a ++ b) =
      (((x.runBytes a).1.runBytes b).1, (x.runBytes a).2 ++ ((x.runBytes a).1.runBytes b).2) := by
  induction a generalizing x with
  | nil => simp [cfb.runBytes]
  | cons p ps ih => simp [cfb.runBytes, ih]

/-- Inside one block the byte-by-byte run is one slice operation. -/
theorem runBytes_block (s : List Byte) (x : cfb) (h : x.WF)
    (hs : x.outUsed + s.length ≤ BlockSize) :
    x.runBytes s =
      ({ x with
          next := copyAt x.next x.outUsed
            (if x.decrypt then s else XORBytes s (x.out.drop x.outUsed))
          outUsed := x.outUsed + s.length },
        XORBytes s (x.out.drop x.outUsed)) := by
  induction s generalizing x with
  | nil =>
    cases x
    simp [cfb.runBytes, XORBytes, copyAt_nil]
  | cons p ps ih =>
    obtain ⟨h1, h2, h3⟩ := h
    have hu : x.outUsed < x.out.length := by
      rw [h2]; simp only [List.length_cons] at hs; omega
    have hun : x.outUsed < x.next.length := by rw [h1, ← h2]; exact hu
    have hr := refill_of_lt x hu
    have hstep : x.stepByte p =
        ({ x with next := x.next.set x.outUsed
                    (if x.decrypt then p else p ^^^ x.out.getD x.outUsed 0)
                  outUsed := x.outUsed + 1 }, p ^^^ x.out.getD x.outUsed 0) := by
      simp only [cfb.stepByte, hr]
    have hwf : (x.stepByte p).1.WF := stepByte_WF x ⟨h1, h2, h3⟩ p
    have := ih (x.stepByte p).1 hwf (by
      rw [hstep]; simp only [List.length_cons] at hs ⊢; omega)
    simp only [cfb.runBytes, this]
    rw [hstep]
    simp only [XORBytes_cons p ps x.out x.outUsed hu, copyAt_set _ _ _ _ hun]
    cases hd : x.decrypt <;> simp [Nat.add_assoc, Nat.add_comm 1]

/-! ## The loop of `XORKeyStream` is the byte-by-byte run -/

theorem segment_unfold (x : cfb) (src : List Byte) :
    x.segment src =
      (let y := x.refill
       let y1 := if y.decrypt then { y with next := copyAt y.next y.outUsed src } else y
       let seg := XORBytes src (y1.out.drop y1.outUsed)
       let y2 := if !y1.decrypt then
         { y1 with next := copyAt y1.next y1.outUsed (seg ++ src.drop seg.length) } else y1
       ({ y2 with outUsed := y2.outUsed + seg.length }, seg)) := rfl

/-- One pass of the loop body is the byte-by-byte run of the bytes that fit
in the current block. -/
theorem segment_eq (x : cfb) (h : x.WF) (src : List Byte) :
    x.segment src =
      x.refill.runBytes (src.take (BlockSize - x.refill.outUsed)) := by
  have hw := refill_WF x h
  have hlt := refill_outUsed_lt x h
  obtain ⟨h1, h2, h3⟩ := hw
  rw [runBytes_block _ x.refill ⟨h1, h2, h3⟩ (by simp only [List.length_take]; omega)]
  have hx : XORBytes (src.take (BlockSize - x.refill.outUsed)) (x.refill.out.drop x.refill.outUsed)
      = XORBytes src (x.refill.out.drop x.refill.outUsed) :=
    XORBytes_take _ _ _ (by simp [h2])
  have hlen : (XORBytes src (x.refill.out.drop x.refill.outUsed)).length
      = (src.take (BlockSize - x.refill.outUsed)).length := by
    simp only [XORBytes_length, List.length_drop, List.length_take, h2]
    omega
  rw [hx, segment_unfold]
  cases hd : x.refill.decrypt with
  | true =>
    simp only [hd, if_true, Bool.not_true, Bool.false_eq_true, if_false, hlen]
    have := copyAt_take x.refill.next x.refill.outUsed src
    rw [h1] at this
    rw [this]
  | false =>
    simp only [hd, Bool.false_eq_true, if_false, Bool.not_false, if_true, hlen]
    have := copyAt_take x.refill.next x.refill.outUsed
      (XORBytes src (x.refill.out.drop x.refill.outUsed) ++
        src.drop (src.take (BlockSize - x.refill.outUsed)).length)
    rw [h1] at this
    rw [← this, List.take_append_eq_append_take, hlen]
    have h0 : List.take (BlockSize - x.refill.outUsed -
        (src.take (BlockSize - x.refill.outUsed)).length)
        (src.drop (src.take (BlockSize - x.refill.outUsed)).length) = [] := by
      by_cases hc : BlockSize - x.refill.outUsed ≤ src.length
      · have : (src.take (BlockSize - x.refill.outUsed)).length = BlockSize - x.refill.outUsed := by
          simp only [List.length_take]; omega
        rw [this]; simp
      · have : (src.take (BlockSize - x.refill.outUsed)).length = src.length := by
          simp only [List.length_take]; omega
        rw [this]; simp
    rw [h0, List.append_nil, List.take_of_length_le (by rw [hlen, List.length_take]; omega)]

theorem segment_drop (x : cfb) (h : x.WF) (src : List Byte) :
    src.drop (x.segment src).2.length = src.drop (BlockSize - x.refill.outUsed) := by
  rw [segment_eq x h, runBytes_length]
  simp only [List.length_take]
  by_cases hc : BlockSize - x.refill.outUsed ≤ src.length
  · rw [Nat.min_eq_left hc]
  · rw [Nat.min_eq_right (by omega), List.drop_eq_nil_of_le (le_refl _),
      List.drop_eq_nil_of_le (by omega)]

/-- With enough fuel the loop of `XORKeyStream` ends, and it computes the
byte-by-byte run. -/
theorem xorLoop_eq (fuel : Nat) (x : cfb) (h : x.WF) (src : List Byte)
    (hf : src.length ≤ fuel) : x.xorLoop fuel src = some (x.runBytes src) := by
  induction fuel generalizing x src with
  | zero =>
    cases src with
    | nil => rfl
    | cons p ps => simp at hf
  | succ fuel ih =>
    cases src with
    | nil => rfl
    | cons p ps =>
      have hlt := refill_outUsed_lt x h
      have hseg := segment_eq x h (p :: ps)
      have hdrop := segment_drop x h (p :: ps)
      have hpos : 0 < BlockSize - x.refill.outUsed := by omega
      obtain ⟨m, hm⟩ : ∃ m, BlockSize - x.refill.outUsed = m + 1 := ⟨_, (Nat.succ_pred_eq_of_pos hpos).symm⟩
      have hwf : (x.segment (p :: ps)).1.WF := by
        rw [hseg]; exact runBytes_WF _ (refill_WF x h) _
      have hrec := ih (x.segment (p :: ps)).1 hwf ((p :: ps).drop (x.segment (p :: ps)).2.length) (by
        rw [hdrop, hm]
        simp only [List.drop_succ_cons, List.length_drop, List.length_cons] at hf ⊢
        omega)
      have hsplit : x.runBytes (p :: ps) =
          x.runBytes ((p :: ps).take (BlockSize - x.refill.outUsed)
            ++ (p :: ps).drop (BlockSize - x.refill.outUsed)) := by
        rw [List.take_append_drop]
      have hre : x.runBytes ((p :: ps).take (BlockSize - x.refill.outUsed)) =
          x.refill.runBytes ((p :: ps).take (BlockSize - x.refill.outUsed)) := by
        rw [hm, List.take_succ_cons, runBytes_refill x h]
      rw [hsplit, runBytes_append, hre, ← hseg, ← hdrop]
      simp only [cfb.xorLoop, hrec]

theorem XORKeyStream_eq (x : cfb) (h : x.WF) (src : List Byte) :
    x.XORKeyStream src = some (x.runBytes src) :=
  xorLoop_eq _ x h src (le_refl _)

theorem newCFB_eq (block : BlockFn) (iv : List Byte) (d : Bool) (h : iv.length = BlockSize) :
    newCFB block iv d = some { b := block, out := make BlockSize, next := iv,
                               outUsed := BlockSize, decrypt := d } := by
  have : copy (make BlockSize) iv = iv := by
    simp [copy, make, h]
  simp [newCFB, h, this]

theorem newCFB_WF (block : BlockFn) (iv : List Byte) (d : Bool) (x : cfb)
    (h : newCFB block iv d = some x) : x.WF := by
  simp only [newCFB] at h
  split at h
  · simp at h
  · rename_i hlen
    simp only [Option.some.injEq] at h
    subst h
    exact ⟨by simp [copy_length, make], by simp [make], le_refl _⟩

/-! ## Reads, writes and the file system -/

theorem bufferSize_pos : 0 < bufferSize := by decide

theorem Read_cases (r : Reader) (size : Nat) (hs : 0 < size) :
    (¬ r.noFail ∧ r.Read size = ({ r with sched := r.sched.tail }, [], some (.PathError .read))) ∨
    (r.data = [] ∧ r.Read size = ({ r with sched := r.sched.tail }, [], some .EOF)) ∨
    (r.data ≠ [] ∧ ∃ n, 1 ≤ n ∧ n ≤ size ∧
      r.Read size = ({ data := r.data.drop n, sched := r.sched.tail }, r.data.take n, none)) := by
  have hs0 : size ≠ 0 := by omega
  obtain ⟨data, sched⟩ := r
  cases sched with
  | nil =>
    by_cases hd : data = []
    · right; left; simp [Reader.Read, hs0, hd]
    · right; right
      exact ⟨hd, size, by omega, le_refl _, by simp [Reader.Read, hs0, hd]⟩
  | cons e rest =>
    cases e with
    | fail => left; simp [Reader.Read, Reader.noFail, readsOK]
    | short k =>
      by_cases hd : data = []
      · right; left; simp [Reader.Read, hs0, hd]
      · right; right
        refine ⟨hd, min (max k 1) size, ?_, Nat.min_le_right _ _, by simp [Reader.Read, hs0, hd]⟩
        have : 1 ≤ max k 1 := Nat.le_max_right _ _
        omega

theorem readsOK_tail (sched : List ReadEvent) (h : readsOK sched) : readsOK sched.tail :=
  fun hm => h (List.mem_of_mem_tail hm)

theorem noFail_tail (data data2 : List Byte) (sched : List ReadEvent)
    (h : Reader.noFail ⟨data, sched⟩) : Reader.noFail ⟨data2, sched.tail⟩ :=
  readsOK_tail sched h

theorem writesOK_tail (sched : List WriteEvent) (h : writesOK sched) : writesOK sched.tail :=
  fun e he => h e (List.mem_of_mem_tail he)

theorem content_put_same (fs : FS) (name c : List Byte) :
    (fs.put name c).content name = some c := by
  simp [FS.content, FS.put, List.lookup]

theorem content_put_other (fs : FS) (name c other : List Byte) (h : other ≠ name) :
    (fs.put name c).content other = fs.content other := by
  have hb : (other == name) = false := by simpa using h
  simp only [FS.content, FS.put, List.lookup, hb]
  induction fs with
  | nil => rfl
  | cons e rest ih =>
    obtain ⟨n, v⟩ := e
    by_cases hn : n = name
    · subst hn
      simp [List.filter, List.lookup, hb, ih]
    · have hf : (!(n == name)) = true := by simpa using hn
      simp only [List.filter, hf, List.lookup]
      rw [ih]

theorem writeAt_end (c buf : List Byte) : writeAt c c.length buf = c ++ buf := by
  simp [writeAt]

/-- What one `Read` on a file handle does, by the bytes `view` that lie from
its offset on. -/
theorem File_Read_cases (f : File) (s : Sys) :
    (¬ readsOK s.reads ∧
      f.Read s bufferSize = (f, { s with reads := s.reads.tail }, [], some (.PathError .read))) ∨
    ((f.reader s).data = [] ∧
      f.Read s bufferSize = (f, { s with reads := s.reads.tail }, [], some .EOF)) ∨
    (∃ chunk, chunk ≠ [] ∧ chunk ++ (f.reader s).data.drop chunk.length = (f.reader s).data ∧
      f.Read s bufferSize =
        ({ f with off := f.off + chunk.length }, { s with reads := s.reads.tail }, chunk, none)) := by
  rcases Read_cases (f.reader s) bufferSize bufferSize_pos with
    ⟨hnf, hR⟩ | ⟨hd, hR⟩ | ⟨hd, n, h1, _, hR⟩
  · left
    exact ⟨hnf, by simp only [File.Read, hR]; rfl⟩
  · right; left
    exact ⟨hd, by simp only [File.Read, hR]; rfl⟩
  · right; right
    refine ⟨(f.reader s).data.take n, ?_, ?_, by simp only [File.Read, hR]; rfl⟩
    · intro h
      have hl := congrArg List.length h
      have hpos : 0 < (f.reader s).data.length := List.length_pos.mpr hd
      simp only [List.length_take, List.length_nil] at hl
      omega
    · conv_rhs => rw [← List.take_append_drop n (f.reader s).data]
      congr 1
      by_cases hn : n ≤ (f.reader s).data.length
      · rw [List.length_take, Nat.min_eq_left hn]
      · rw [List.length_take, Nat.min_eq_right (by omega),
          List.drop_eq_nil_of_le (le_refl _), List.drop_eq_nil_of_le (by omega)]

theorem File_Write_cases (f : File) (s : Sys) (buf : List Byte) :
    (¬ writesOK s.writes ∧ ∃ f2 s2, f.Write s buf = (f2, s2, some (.PathError .write))) ∨
    (f.Write s buf =
      ({ f with off := f.off + buf.length },
       { s with fs := s.fs.put f.name (writeAt ((s.fs.content f.name).getD []) f.off buf),
                writes := s.writes.tail }, none)) := by
  obtain ⟨fs, reads, writes⟩ := s
  cases writes with
  | nil => right; rfl
  | cons e rest =>
    cases e with
    | ok => right; rfl
    | fail k =>
      left
      refine ⟨?_, _, _, rfl⟩
      intro h
      have := h (.fail k) (List.mem_cons_self _ _)
      cases this

/-- One pass of the read-transform-write loop. -/
theorem streamLoop_step (fuel : Nat) (x : cfb) (hx : x.WF) (inp out : File) (s : Sys) :
    (¬ readsOK s.reads ∧ streamLoop (fuel + 1) x inp out s =
      some (.returned (some (.PathError .read)), { s with reads := s.reads.tail })) ∨
    ((inp.reader s).data = [] ∧ streamLoop (fuel + 1) x inp out s =
      some (.returned none, { s with reads := s.reads.tail })) ∨
    (∃ chunk, chunk ≠ [] ∧
      chunk ++ (inp.reader s).data.drop chunk.length = (inp.reader s).data ∧
      ((¬ writesOK s.writes ∧ ∃ s2, streamLoop (fuel + 1) x inp out s =
          some (.returned (some (.PathError .write)), s2)) ∨
       streamLoop (fuel + 1) x inp out s =
        streamLoop fuel (x.runBytes chunk).1 { inp with off := inp.off + chunk.length }
          { out with off := out.off + (x.runBytes chunk).2.length }
          { fs := s.fs.put out.name
              (writeAt ((s.fs.content out.name).getD []) out.off (x.runBytes chunk).2)
            reads := s.reads.tail
            writes := s.writes.tail })) := by
  rcases File_Read_cases inp s with ⟨hnf, hR⟩ | ⟨hd, hR⟩ | ⟨chunk, hne, happ, hR⟩
  · left
    exact ⟨hnf, by simp [streamLoop, hR]⟩
  · right; left
    exact ⟨hd, by simp [streamLoop, hR]⟩
  · right; right
    refine ⟨chunk, hne, happ, ?_⟩
    have hpos : 0 < chunk.length := List.length_pos.mpr hne
    have hX := XORKeyStream_eq x hx chunk
    rcases File_Write_cases out { s with reads := s.reads.tail } (x.runBytes chunk).2 with
      ⟨hnw, f2, s2, hW⟩ | hW
    · left
      exact ⟨hnw, s2, by simp [streamLoop, hR, hpos, hX, hW]⟩
    · right
      simp [streamLoop, hR, hpos, hX, hW]

/-! ## The read-transform-write loop -/

/-- An encrypter and the decrypter that has read its output are in the same
state. -/
theorem stepByte_mirror (x : cfb) (hx : x.decrypt = false) (p : Byte) :
    ({ x with decrypt := true } : cfb).stepByte (x.stepByte p).2
      = ({ (x.stepByte p).1 with decrypt := true }, p) := by
  have hr : ({ x with decrypt := true } : cfb).refill = { x.refill with decrypt := true } := by
    unfold cfb.refill
    split <;> rfl
  have hd : x.refill.decrypt = false := by
    unfold cfb.refill
    split <;> exact hx
  simp only [cfb.stepByte, hr, hd, xor_cancel]
  simp

theorem stepByte_decrypt (x : cfb) (p : Byte) : (x.stepByte p).1.decrypt = x.decrypt := by
  unfold cfb.stepByte cfb.refill
  split <;> rfl

theorem runBytes_mirror (x : cfb) (hx : x.decrypt = false) (s : List Byte) :
    ({ x with decrypt := true } : cfb).runBytes (x.runBytes s).2
      = ({ (x.runBytes s).1 with decrypt := true }, s) := by
  induction s generalizing x with
  | nil => rfl
  | cons p ps ih =>
    have h1 : (x.stepByte p).1.decrypt = false := by rw [stepByte_decrypt, hx]
    have := ih (x.stepByte p).1 h1
    simp only [cfb.runBytes, stepByte_mirror x hx, this]

/-- However the loop ends, it is not by a panic or a key-size error, and it is
with `nil` when no read and no write fails. -/
theorem streamLoop_exit (fuel : Nat) (x : cfb) (hx : x.WF) (inp out : File) (s : Sys)
    (e : Exit) (s2 : Sys) (h : streamLoop fuel x inp out s = some (e, s2)) :
    e ≠ .panicked ∧ (∀ k, e ≠ .returned (some (.KeySizeError k))) ∧
      (readsOK s.reads → writesOK s.writes → e = .returned none) := by
  induction fuel generalizing x inp out s with
  | zero => simp [streamLoop] at h
  | succ fuel ih =>
    rcases streamLoop_step fuel x hx inp out s with
      ⟨hnf, hS⟩ | ⟨_, hS⟩ | ⟨chunk, _, _, ⟨hnw, s3, hS⟩ | hS⟩
    · rw [hS] at h
      simp only [Option.some.injEq, Prod.mk.injEq] at h
      rw [← h.1]
      exact ⟨(fun h => by cases h), (fun k h => by cases h), (fun hr => absurd hr hnf)⟩
    · rw [hS] at h
      simp only [Option.some.injEq, Prod.mk.injEq] at h
      rw [← h.1]
      exact ⟨(fun h => by cases h), (fun k h => by cases h), (fun _ _ => rfl)⟩
    · rw [hS] at h
      simp only [Option.some.injEq, Prod.mk.injEq] at h
      rw [← h.1]
      exact ⟨(fun h => by cases h), (fun k h => by cases h), (fun _ hw => absurd hw hnw)⟩
    · rw [hS] at h
      obtain ⟨h1, h2, h3⟩ := ih _ (runBytes_WF x hx chunk) _ _ _ h
      exact ⟨h1, h2, fun hr hw => h3 (readsOK_tail _ hr) (writesOK_tail _ hw)⟩

/-- The loop reading one file and writing at the end of another: with enough
fuel it ends, and when it returns `nil` it has appended the stream's
transform of all the input from the handle's offset on, leaving the input
as it was. -/
theorem streamLoop_distinct (fuel : Nat) (x : cfb) (hx : x.WF) (inp out : File) (s : Sys)
    (D O : List Byte) (hne : inp.name ≠ out.name)
    (hD : s.fs.content inp.name = some D) (hO : s.fs.content out.name = some O)
    (hoff : out.off = O.length) :
    ((D.drop inp.off).length < fuel → ∃ e s2, streamLoop fuel x inp out s = some (e, s2)) ∧
    (∀ s2, streamLoop fuel x inp out s = some (.returned none, s2) →
      s2.fs.content out.name = some (O ++ (x.runBytes (D.drop inp.off)).2) ∧
      s2.fs.content inp.name = some D) := by
  induction fuel generalizing x inp out s O with
  | zero =>
    exact ⟨fun h => by omega, fun s2 h => by simp [streamLoop] at h⟩
  | succ fuel ih =>
    have hview : (inp.reader s).data = D.drop inp.off := by
      simp [File.reader, hD]
    rcases streamLoop_step fuel x hx inp out s with
      ⟨hnf, hS⟩ | ⟨hd, hS⟩ | ⟨chunk, hcne, happ, ⟨hnw, s3, hS⟩ | hS⟩
    · refine ⟨fun _ => ⟨_, _, hS⟩, fun s2 h => ?_⟩
      rw [hS] at h
      simp at h
    · refine ⟨fun _ => ⟨_, _, hS⟩, fun s2 h => ?_⟩
      rw [hS] at h
      simp only [Option.some.injEq, Prod.mk.injEq, true_and] at h
      rw [← h]
      rw [hview] at hd
      simp [hd, cfb.runBytes, hO, hD]
    · refine ⟨fun _ => ⟨_, _, hS⟩, fun s2 h => ?_⟩
      rw [hS] at h
      simp at h
    · rw [hview] at happ
      have hw : writeAt ((s.fs.content out.name).getD []) out.off (x.runBytes chunk).2
          = O ++ (x.runBytes chunk).2 := by
        rw [hO, hoff]; exact writeAt_end _ _
      rw [hw] at hS
      have hdrop : D.drop (inp.off + chunk.length) = (D.drop inp.off).drop chunk.length := by
        rw [List.drop_drop, Nat.add_comm]
      have hlen : (D.drop inp.off).length
          = chunk.length + (D.drop (inp.off + chunk.length)).length := by
        conv_lhs => rw [← happ]
        rw [List.length_append, hdrop]
      have hpos : 0 < chunk.length := List.length_pos.mpr hcne
      obtain ⟨ihT, ihS⟩ := ih (x.runBytes chunk).1 (runBytes_WF x hx chunk)
        { inp with off := inp.off + chunk.length }
        { out with off := out.off + (x.runBytes chunk).2.length }
        { fs := s.fs.put out.name (O ++ (x.runBytes chunk).2)
          reads := s.reads.tail, writes := s.writes.tail }
        (O ++ (x.runBytes chunk).2) hne
        (by simp only [content_put_other _ _ _ _ hne, hD])
        (by simp only [content_put_same])
        (by simp only [hoff, List.length_append])
      rw [hS]
      refine ⟨fun hf => ihT (by simp only at hf ⊢; omega), fun s2 h => ?_⟩
      obtain ⟨h1, h2⟩ := ihS s2 h
      refine ⟨?_, h2⟩
      simp only at h1
      rw [h1, List.append_assoc]
      congr 2
      conv_rhs => rw [← happ, runBytes_append]
      rw [hdrop]

/-- The loop reading the file it appends to never returns `nil`: every pass
leaves bytes to read. -/
theorem streamLoop_alias (fuel : Nat) (x : cfb) (hx : x.WF) (inp out : File) (s : Sys)
    (O : List Byte) (hname : inp.name = out.name)
    (hO : s.fs.content out.name = some O) (hoff : out.off = O.length)
    (hin : inp.off < O.length) (s2 : Sys) :
    streamLoop fuel x inp out s ≠ some (.returned none, s2) := by
  induction fuel generalizing x inp out s O with
  | zero => simp [streamLoop]
  | succ fuel ih =>
    have hview : (inp.reader s).data = O.drop inp.off := by
      simp [File.reader, hname, hO]
    rcases streamLoop_step fuel x hx inp out s with
      ⟨hnf, hS⟩ | ⟨hd, hS⟩ | ⟨chunk, hcne, happ, ⟨hnw, s3, hS⟩ | hS⟩
    · rw [hS]; simp
    · rw [hview] at hd
      have := congrArg List.length hd
      simp only [List.length_drop, List.length_nil] at this
      omega
    · rw [hS]; simp
    · rw [hview] at happ
      have hw : writeAt ((s.fs.content out.name).getD []) out.off (x.runBytes chunk).2
          = O ++ (x.runBytes chunk).2 := by
        rw [hO, hoff]; exact writeAt_end _ _
      rw [hw] at hS
      have hcl : chunk.length ≤ (O.drop inp.off).length := by
        conv_rhs => rw [← happ]
        rw [List.length_append]; omega
      have hpos : 0 < chunk.length := List.length_pos.mpr hcne
      rw [hS]
      exact ih (x.runBytes chunk).1 (runBytes_WF x hx chunk)
        { inp with off := inp.off + chunk.length }
        { out with off := out.off + (x.runBytes chunk).2.length }
        { fs := s.fs.put out.name (O ++ (x.runBytes chunk).2)
          reads := s.reads.tail, writes := s.writes.tail }
        (O ++ (x.runBytes chunk).2) hname
        (by simp only [content_put_same])
        (by simp only [hoff, List.length_append])
        (by
          simp only [List.length_append, runBytes_length, List.length_drop] at hcl ⊢
          omega)

/-! ## `io.ReadFull` -/

theorem readAtLeastLoop_spec (fuel : Nat) (r : Reader) (min : Nat) (got : List Byte)
    (hf : min ≤ got.length + fuel) (hg : got.length ≤ min) :
    ∃ r2 got2 err, readAtLeastLoop fuel r min got = some (r2, got2, err) ∧
      got2 ++ r2.data = got ++ r.data ∧
      got2.length ≤ min ∧
      (err = none → got2.length = min) ∧
      (err ≠ none → got2.length < min) ∧
      (r.noFail → r2.noFail) ∧
      (r.noFail → err = none ∨ (err = some .EOF ∧ r2.data = [])) ∧
      (∀ k, err ≠ some (.KeySizeError k)) := by
  induction fuel generalizing r got with
  | zero =>
    have hge : ¬ got.length < min := by omega
    refine ⟨r, got, none, ?_, rfl, hg, ?_, ?_, id, ?_, ?_⟩
    · rw [readAtLeastLoop, if_neg hge]
    · intro _; omega
    · intro h; exact absurd rfl h
    · intro _; left; rfl
    · intro k h; cases h
  | succ fuel ih =>
    by_cases hlt : got.length < min
    · rw [readAtLeastLoop, if_pos hlt]
      rcases Read_cases r (min - got.length) (by omega) with
        ⟨hnf, hR⟩ | ⟨hd, hR⟩ | ⟨hd, n, h1, h2, hR⟩
      · refine ⟨{ r with sched := r.sched.tail }, got, some (.PathError .read),
          ?_, ?_, hg, ?_, ?_, ?_, ?_, ?_⟩
        · simp only [hR, List.append_nil]
        · rfl
        · intro h; cases h
        · intro _; exact hlt
        · intro h; exact absurd h hnf
        · intro h; exact absurd h hnf
        · intro k h; cases h
      · refine ⟨{ r with sched := r.sched.tail }, got, some .EOF,
          ?_, ?_, hg, ?_, ?_, ?_, ?_, ?_⟩
        · simp only [hR, List.append_nil]
        · rfl
        · intro h; cases h
        · intro _; exact hlt
        · intro h; exact noFail_tail _ _ _ h
        · intro _; right; exact ⟨rfl, hd⟩
        · intro k h; cases h
      · have hpos : 0 < r.data.length := List.length_pos.mpr hd
        have hcl : (r.data.take n).length = Nat.min n r.data.length := List.length_take _ _
        obtain ⟨r2, got2, err, hE, happ, hle, hnone, hsome, hnf, hcase, hk⟩ :=
          ih { data := r.data.drop n, sched := r.sched.tail } (got ++ r.data.take n)
            (by simp only [List.length_append, List.length_take]; omega)
            (by simp only [List.length_append, List.length_take]; omega)
        refine ⟨r2, got2, err, ?_, ?_, hle, hnone, hsome, ?_, ?_, hk⟩
        · simp only [hR, hE]
        · rw [happ, List.append_assoc, List.take_append_drop]
        · intro h; exact hnf (noFail_tail _ _ _ h)
        · intro h; exact hcase (noFail_tail _ _ _ h)
    · refine ⟨r, got, none, ?_, rfl, hg, ?_, ?_, id, ?_, ?_⟩
      · rw [readAtLeastLoop, if_neg hlt]
      · intro _; omega
      · intro h; exact absurd rfl h
      · intro _; left; rfl
      · intro k h; cases h

/-- `io.ReadFull` ends; it returns `nil` exactly with `size` bytes, it fails
on a reader that holds fewer, and on a reader whose reads do not fail it
returns `nil` when the data suffices and `EOF`/`ErrUnexpectedEOF` when not. -/
theorem ReadFull_spec (r : Reader) (size : Nat) :
    ∃ r2 got err, ReadFull r size = some (r2, got, err) ∧
      got ++ r2.data = r.data ∧
      (err = none → got.length = size) ∧
      (r.data.length < size → err ≠ none) ∧
      (r.noFail → r2.noFail) ∧
      (r.noFail → size ≤ r.data.length → err = none) ∧
      (r.noFail → r.data.length < size →
        err = some (if r.data = [] then .EOF else .ErrUnexpectedEOF)) ∧
      (∀ k, err ≠ some (.KeySizeError k)) := by
  obtain ⟨r2, got2, err, hE, happ, hle, hnone, hsome, hnf, hcase, hk⟩ :=
    readAtLeastLoop_spec size r size [] (by simp) (by simp)
  have hlen : got2.length + r2.data.length = r.data.length := by
    have := congrArg List.length happ
    simpa using this
  simp only [List.nil_append] at happ
  by_cases hge : got2.length ≥ size
  · have herr : err = none := by
      by_contra hne
      have := hsome hne
      omega
    refine ⟨r2, got2, none, ?_, happ, ?_, ?_, hnf, ?_, ?_, ?_⟩
    · simp [ReadFull, hE, hge]
    · intro _; omega
    · intro h; omega
    · intro _ _; rfl
    · intro _ h; omega
    · intro k h; cases h
  · have herr : err ≠ none := fun h => hge (by rw [hnone h])
    by_cases hu : got2.length > 0 ∧ err = some .EOF
    · refine ⟨r2, got2, some .ErrUnexpectedEOF, ?_, happ, ?_, ?_, hnf, ?_, ?_, ?_⟩
      · simp [ReadFull, hE, hge, hu]
      · intro h; cases h
      · intro _ h; cases h
      · intro hn hs
        rcases hcase hn with h | ⟨_, h⟩
        · exact absurd h herr
        · rw [h] at hlen; simp at hlen; omega
      · intro _ _
        have : r.data ≠ [] := by
          intro h
          have h0 : r.data.length = 0 := by rw [h]; rfl
          omega
        rw [if_neg this]
      · intro k h; cases h
    · refine ⟨r2, got2, err, ?_, happ, ?_, ?_, hnf, ?_, ?_, hk⟩
      · simp only [ReadFull, hE, if_neg hge, if_neg hu]
      · intro h; exact absurd h herr
      · intro _; exact herr
      · intro hn hs
        rcases hcase hn with h | ⟨_, h⟩
        · exact absurd h herr
        · rw [h] at hlen; simp at hlen; omega
      · intro hn hs
        rcases hcase hn with h | ⟨he, h⟩
        · exact absurd h herr
        · have h0 : got2.length = 0 := by
            by_contra hc
            exact hu ⟨by omega, he⟩
          have : r.data = [] := by
            rw [h] at hlen; simp at hlen
            exact List.length_eq_zero.mp (by omega)
          rw [if_pos this, he]

/-! ## `encryptFile` and `decryptFile` -/

theorem newCFB_init (block : BlockFn) (iv : List Byte) (d : Bool) (h : iv.length = BlockSize) :
    newCFB block iv d = some (cfb.init block iv d) := by
  rw [newCFB_eq block iv d h]; rfl

theorem init_WF (block : BlockFn) (iv : List Byte) (d : Bool) (h : iv.length = BlockSize) :
    (cfb.init block iv d).WF :=
  newCFB_WF block iv d _ (newCFB_init block iv d h)

theorem processKey_length (key : List Byte) : (processKey key).length = 32 := by
  unfold processKey
  simp only []
  split
  · rename_i h
    simp only [maxKeySize] at h
    simp only [List.length_take, maxKeySize]
    omega
  · simp [copy_length, make, maxKeySize]

theorem NewCipher_processKey (aes : List Byte → BlockFn) (key : List Byte) :
    NewCipher aes (processKey key) = .ok (aes (processKey key)) := by
  simp [NewCipher, processKey_length]

theorem generateIV_spec (rand : Reader) :
    ∃ res, generateIV rand = some res ∧
      (∀ iv, res = .ok iv → iv.length = BlockSize ∧ iv = rand.data.take BlockSize) ∧
      (rand.noFail → BlockSize ≤ rand.data.length → ∃ iv, res = .ok iv) ∧
      (∀ e, res = .error e → ∀ k, e ≠ .KeySizeError k) := by
  obtain ⟨r2, got, err, hE, happ, hnone, _, _, hok, _, hk⟩ := ReadFull_spec rand BlockSize
  cases err with
  | none =>
    refine ⟨.ok got, by simp [generateIV, hE], ?_, ?_, ?_⟩
    · intro iv h
      cases h
      have hl := hnone rfl
      refine ⟨hl, ?_⟩
      rw [← happ, List.take_left' hl]
    · intro _ _; exact ⟨got, rfl⟩
    · intro e h; cases h
  | some e =>
    refine ⟨.error e, by simp [generateIV, hE], ?_, ?_, ?_⟩
    · intro iv h; cases h
    · intro h1 h2
      have := hok h1 h2
      cases this
    · intro e2 h k hk2
      cases h
      exact hk k (by rw [hk2])

/-- `encryptFile` either runs out of fuel, which needs the two names to be
the same or the fuel to be at most the length of the input, or ends, and
then not by a panic or a key-size error; when it returns `nil` the two names
differ and the output file holds the IV followed by the stream's transform of
the input; it returns `nil` whenever it ends and nothing in the environment
fails. -/
theorem encryptFile_spec (fuel : Nat) (env : Env) (key a b : List Byte) :
    (encryptFile fuel env key a b = none ∧
      (a = b ∨ fuel ≤ ((env.fs.content a).getD []).length)) ∨
    ∃ e fs2, encryptFile fuel env key a b = some (e, fs2) ∧ e ≠ .panicked ∧
      (∀ k, e ≠ .returned (some (.KeySizeError k))) ∧
      (e = .returned none → a ≠ b ∧ ∃ P iv, env.fs.content a = some P ∧
        generateIV env.rand = some (.ok iv) ∧ iv.length = BlockSize ∧
        fs2.content b =
          some (iv ++ ((cfb.init (env.aes (processKey key)) iv false).runBytes P).2) ∧
        fs2.content a = some P) ∧
      (env.ioOK → env.rand.noFail → BlockSize ≤ env.rand.data.length →
        env.fs.content a ≠ none → e = .returned none) := by
  by_cases h1 : env.openErr = true ∨ env.fs.content a = none
  · right
    refine ⟨.returned (some (.PathError .open)), env.fs, by simp only [encryptFile, if_pos h1],
      ?_, ?_, ?_, ?_⟩
    · intro h; cases h
    · intro k h; cases h
    · intro h; cases h
    · intro hio _ _ hex
      rcases h1 with h | h
      · rw [hio.1] at h; cases h
      · exact absurd h hex
  by_cases h2 : env.createErr = true
  · right
    refine ⟨.returned (some (.PathError .open)), env.fs,
      by simp only [encryptFile, if_neg h1, if_pos h2], ?_, ?_, ?_, ?_⟩
    · intro h; cases h
    · intro k h; cases h
    · intro h; cases h
    · intro h; rw [h.2.1] at h2; cases h2
  by_cases h3 : env.statErr = true
  · right
    refine ⟨.returned (some (.PathError .stat)), env.fs.put b [],
      by simp only [encryptFile, if_neg h1, if_neg h2, if_pos h3], ?_, ?_, ?_, ?_⟩
    · intro h; cases h
    · intro k h; cases h
    · intro h; cases h
    · intro h; rw [h.2.2.1] at h3; cases h3
  obtain ⟨P, hP⟩ : ∃ P, env.fs.content a = some P := by
    cases hc : env.fs.content a with
    | none => exact absurd (Or.inr hc) h1
    | some P => exact ⟨P, rfl⟩
  obtain ⟨res, hG, hiv, hgok, hgk⟩ := generateIV_spec env.rand
  cases res with
  | error e =>
    right
    refine ⟨.returned (some e), env.fs.put b [], ?_, ?_, ?_, ?_, ?_⟩
    · simp only [encryptFile, if_neg h1, if_neg h2, if_neg h3, NewCipher_processKey, hG]
    · intro h; cases h
    · intro k h
      cases h
      exact hgk _ rfl k rfl
    · intro h; cases h
    · intro _ hr hl
      obtain ⟨iv, h⟩ := hgok hr hl
      cases h
  | ok iv =>
    obtain ⟨hlen, _⟩ := hiv iv rfl
    rcases File_Write_cases { name := b, off := 0 }
        { fs := env.fs.put b [], reads := env.reads, writes := env.writes } iv with
      ⟨hnw, f2, s2, hW⟩ | hW
    · right
      refine ⟨.returned (some (.PathError .write)), s2.fs, ?_, ?_, ?_, ?_, ?_⟩
      · simp only [encryptFile, if_neg h1, if_neg h2, if_neg h3, NewCipher_processKey, hG, hW]
      · intro h; cases h
      · intro k h; cases h
      · intro h; cases h
      · intro h; exact absurd h.2.2.2.2 hnw
    · have hwr : writeAt (((env.fs.put b []).content b).getD []) 0 iv = iv := by
        simp [content_put_same, writeAt]
      simp only [hwr] at hW
      have hwf := init_WF (env.aes (processKey key)) iv false hlen
      have hb : ((env.fs.put b []).put b iv).content b = some iv := content_put_same _ _ _
      cases hS : streamLoop fuel (cfb.init (env.aes (processKey key)) iv false)
          { name := a, off := 0 } { name := b, off := 0 + iv.length }
          { fs := (env.fs.put b []).put b iv, reads := env.reads, writes := env.writes.tail } with
      | none =>
        left
        refine ⟨?_, ?_⟩
        · simp only [encryptFile, if_neg h1, if_neg h2, if_neg h3, NewCipher_processKey, hG, hW,
            NewCFBEncrypter, newCFB_init _ _ _ hlen, hS]
        · by_cases hab : a = b
          · left; exact hab
          · right
            have ha : ((env.fs.put b []).put b iv).content a = some P := by
              rw [content_put_other _ _ _ _ hab, content_put_other _ _ _ _ hab, hP]
            obtain ⟨hT, _⟩ := streamLoop_distinct fuel _ hwf { name := a, off := 0 }
              { name := b, off := 0 + iv.length }
              { fs := (env.fs.put b []).put b iv, reads := env.reads,
                writes := env.writes.tail } P iv hab ha hb (by simp)
            by_contra hlt
            obtain ⟨e, s3, h⟩ := hT (by simp only [List.drop_zero, hP, Option.getD_some] at hlt ⊢; omega)
            rw [hS] at h
            cases h
      | some r =>
        obtain ⟨e, s3⟩ := r
        obtain ⟨hnp, hnk, hok⟩ := streamLoop_exit fuel _ hwf _ _ _ e s3 hS
        right
        refine ⟨e, s3.fs, ?_, hnp, hnk, ?_, ?_⟩
        · simp only [encryptFile, if_neg h1, if_neg h2, if_neg h3, NewCipher_processKey, hG, hW,
            NewCFBEncrypter, newCFB_init _ _ _ hlen, hS]
        · intro he
          subst he
          have hab : a ≠ b := by
            intro hab
            exact streamLoop_alias fuel _ hwf { name := a, off := 0 }
              { name := b, off := 0 + iv.length }
              { fs := (env.fs.put b []).put b iv, reads := env.reads,
                writes := env.writes.tail } iv hab hb (by simp)
              (by simp only [hlen]; decide) s3 hS
          have ha : ((env.fs.put b []).put b iv).content a = some P := by
            rw [content_put_other _ _ _ _ hab, content_put_other _ _ _ _ hab, hP]
          obtain ⟨_, hD⟩ := streamLoop_distinct fuel _ hwf { name := a, off := 0 }
            { name := b, off := 0 + iv.length }
            { fs := (env.fs.put b []).put b iv, reads := env.reads,
              writes := env.writes.tail } P iv hab ha hb (by simp)
          obtain ⟨hc1, hc2⟩ := hD s3 hS
          exact ⟨hab, P, iv, hP, hG, hlen, by simpa using hc1, hc2⟩
        · intro hio _ _ _
          exact hok hio.2.2.2.1 (writesOK_tail _ hio.2.2.2.2)

/-- `decryptFile` either runs out of fuel, which needs an input of at least
`fuel + 16` bytes, or ends, and then not by a panic or a key-size error; when
it returns `nil` the two names differ, the input had an IV header and the
output file holds the stream's transform of what follows it; it returns
`nil` on another file of 16 bytes or more when nothing in the environment
fails; and it fails, leaving the output untouched or empty, when the input is
the output or has fewer than 16 bytes. -/
theorem decryptFile_spec (fuel : Nat) (env : Env) (key a b : List Byte) :
    (decryptFile fuel env key a b = none ∧
      fuel + BlockSize ≤ ((env.fs.content a).getD []).length) ∨
    ∃ e fs2, decryptFile fuel env key a b = some (e, fs2) ∧ e ≠ .panicked ∧
      (∀ k, e ≠ .returned (some (.KeySizeError k))) ∧
      (e = .returned none → a ≠ b ∧ ∃ P, env.fs.content a = some P ∧ BlockSize ≤ P.length ∧
        fs2.content b =
          some ((cfb.init (env.aes (processKey key)) (P.take BlockSize) true).runBytes
                  (P.drop BlockSize)).2 ∧
        fs2.content a = some P) ∧
      (env.ioOK → a ≠ b → BlockSize ≤ ((env.fs.content a).getD []).length →
        e = .returned none) ∧
      ((a = b ∨ ((env.fs.content a).getD []).length < BlockSize) →
        e ≠ .returned none ∧ (fs2 = env.fs ∨ fs2 = env.fs.put b [])) ∧
      (env.openErr = false → env.fs.content a ≠ none → env.createErr = false →
        env.statErr = false →
        (a = b ∨ ((env.fs.content a).getD []).length < BlockSize) →
        ∃ r got err,
          ReadFull { data := ((env.fs.put b []).content a).getD [], sched := env.reads }
            BlockSize = some (r, got, some err) ∧
          e = .returned (some err) ∧ fs2 = env.fs.put b []) := by
  by_cases h1 : env.openErr = true ∨ env.fs.content a = none
  · right
    refine ⟨.returned (some (.PathError .open)), env.fs, by simp only [decryptFile, if_pos h1],
      ?_, ?_, ?_, ?_, ?_, ?_⟩
    · intro h; cases h
    · intro k h; cases h
    · intro h; cases h
    · intro hio _ hl
      rcases h1 with h | h
      · rw [hio.1] at h; cases h
      · rw [h] at hl
        simp [BlockSize] at hl
    · intro _; exact ⟨(fun h => by cases h), Or.inl rfl⟩
    · intro ho hex
      rcases h1 with h | h
      · rw [ho] at h; cases h
      · exact absurd h hex
  by_cases h2 : env.createErr = true
  · right
    refine ⟨.returned (some (.PathError .open)), env.fs,
      by simp only [decryptFile, if_neg h1, if_pos h2], ?_, ?_, ?_, ?_, ?_, ?_⟩
    · intro h; cases h
    · intro k h; cases h
    · intro h; cases h
    · intro h; rw [h.2.1] at h2; cases h2
    · intro _; exact ⟨(fun h => by cases h), Or.inl rfl⟩
    · intro _ _ h; rw [h] at h2; cases h2
  by_cases h3 : env.statErr = true
  · right
    refine ⟨.returned (some (.PathError .stat)), env.fs.put b [],
      by simp only [decryptFile, if_neg h1, if_neg h2, if_pos h3], ?_, ?_, ?_, ?_, ?_, ?_⟩
    · intro h; cases h
    · intro k h; cases h
    · intro h; cases h
    · intro h; rw [h.2.2.1] at h3; cases h3
    · intro _; exact ⟨(fun h => by cases h), Or.inr rfl⟩
    · intro _ _ _ h; rw [h] at h3; cases h3
  obtain ⟨P, hP⟩ : ∃ P, env.fs.content a = some P := by
    cases hc : env.fs.content a with
    | none => exact absurd (Or.inr hc) h1
    | some P => exact ⟨P, rfl⟩
  have hview : File.reader { name := a, off := 0 }
      { fs := env.fs.put b [], reads := env.reads, writes := env.writes }
      = { data := ((env.fs.put b []).content a).getD [], sched := env.reads } := by
    simp [File.reader]
  have hdata : ((env.fs.put b []).content a).getD [] = if a = b then [] else P := by
    by_cases hab : a = b
    · subst hab; simp [content_put_same]
    · simp [content_put_other _ _ _ _ hab, hP, hab]
  obtain ⟨r2, got, err, hE, happ, hnone, hshort, hnf, hok, _, hk⟩ :=
    ReadFull_spec { data := ((env.fs.put b []).content a).getD [], sched := env.reads } BlockSize
  have hRF : File.ReadFull { name := a, off := 0 }
      { fs := env.fs.put b [], reads := env.reads, writes := env.writes } BlockSize
      = some ({ name := a, off := 0 + got.length },
          { fs := env.fs.put b [], reads := r2.sched, writes := env.writes }, got, err) := by
    simp only [File.ReadFull, hview, hE]
  simp only [hP, Option.getD_some]
  cases err with
  | some err =>
    right
    refine ⟨.returned (some err), env.fs.put b [], ?_, ?_, ?_, ?_, ?_, ?_, ?_⟩
    · simp only [decryptFile, if_neg h1, if_neg h2, if_neg h3, NewCipher_processKey, hRF]
    · intro h; cases h
    · intro k h
      cases h
      exact hk k rfl
    · intro h; cases h
    · intro hio hab hl
      have := hok hio.2.2.2.1 (by simp only [hdata, if_neg hab]; exact hl)
      cases this
    · intro _; exact ⟨(fun h => by cases h), Or.inr rfl⟩
    · intro _ _ _ _ _; exact ⟨r2, got, err, hE, rfl, rfl⟩
  | none =>
    have hlen : got.length = BlockSize := hnone rfl
    have hab : a ≠ b := by
      intro hab
      have h0 := congrArg List.length happ
      simp only [hdata, if_pos hab, List.length_append, List.length_nil, hlen] at h0
      simp [BlockSize] at h0
    simp only [hdata, if_neg hab] at happ
    have hgot : got = P.take BlockSize := by
      rw [← happ, List.take_left' hlen]
    have hrest : r2.data = P.drop BlockSize := by
      rw [← happ, List.drop_left' hlen]
    have hge : BlockSize ≤ P.length := by
      rw [← happ, List.length_append, hlen]; omega
    have hwf := init_WF (env.aes (processKey key)) got true hlen
    have ha : (env.fs.put b []).content a = some P := by
      rw [content_put_other _ _ _ _ hab, hP]
    have hb : (env.fs.put b []).content b = some [] := content_put_same _ _ _
    obtain ⟨hT, hD⟩ := streamLoop_distinct fuel _ hwf { name := a, off := 0 + got.length }
      { name := b, off := 0 }
      { fs := env.fs.put b [], reads := r2.sched, writes := env.writes } P [] hab ha hb rfl
    cases hS : streamLoop fuel (cfb.init (env.aes (processKey key)) got true)
        { name := a, off := 0 + got.length } { name := b, off := 0 }
        { fs := env.fs.put b [], reads := r2.sched, writes := env.writes } with
    | none =>
      left
      refine ⟨?_, ?_⟩
      · simp only [decryptFile, if_neg h1, if_neg h2, if_neg h3, NewCipher_processKey, hRF,
          NewCFBDecrypter, newCFB_init _ _ _ hlen, hS]
      · by_contra hlt
        obtain ⟨e, s3, h⟩ := hT (by
          simp only [List.length_drop, hlen, Nat.zero_add] at hlt ⊢; omega)
        rw [hS] at h
        cases h
    | some r =>
      obtain ⟨e, s3⟩ := r
      obtain ⟨hnp, hnk, hsok⟩ := streamLoop_exit fuel _ hwf _ _ _ e s3 hS
      right
      refine ⟨e, s3.fs, ?_, hnp, hnk, ?_, ?_, ?_, ?_⟩
      · simp only [decryptFile, if_neg h1, if_neg h2, if_neg h3, NewCipher_processKey, hRF,
          NewCFBDecrypter, newCFB_init _ _ _ hlen, hS]
      · intro he
        subst he
        obtain ⟨hc1, hc2⟩ := hD s3 hS
        refine ⟨hab, P, rfl, hge, ?_, hc2⟩
        rw [hc1, ← hgot, hlen]
        simp
      · intro hio _ _
        have hr2 : readsOK r2.sched := hnf hio.2.2.2.1
        exact hsok hr2 hio.2.2.2.2
      · intro h
        rcases h with h | h
        · exact absurd h hab
        · omega
      · intro _ _ _ _ h
        rcases h with h | h
        · exact absurd h hab
        · omega

/-! ## The properties -/

theorem HasSuffix_append (t suffix : List Byte) : HasSuffix (t ++ suffix) suffix = true := by
  have h : (t ++ suffix).length - suffix.length = t.length := by simp
  simp [HasSuffix, h]

theorem HasSuffix_isSuffix (s suffix : List Byte) (h : HasSuffix s suffix = true) :
    suffix <:+ s := by
  simp only [HasSuffix, Bool.and_eq_true, beq_iff_eq] at h
  rw [← h.2]
  exact List.drop_suffix _ _

theorem TrimSuffix_append (t suffix : List Byte) : TrimSuffix (t ++ suffix) suffix = t := by
  have h : (t ++ suffix).length - suffix.length = t.length := by simp
  rw [TrimSuffix, if_pos (HasSuffix_append t suffix), h, List.take_left']
  rfl

/-- C2: `processKey` is truncate-or-pad: the first 32 bytes of a passphrase of
32 bytes or more, a shorter passphrase followed by zero bytes up to 32, and
32 zero bytes for the empty passphrase. -/
theorem processKey_truncate_or_pad (key : List Byte) :
    (32 ≤ key.length → processKey key = key.take 32) ∧
    (key.length < 32 → processKey key = key ++ List.replicate (32 - key.length) 0) ∧
    processKey [] = List.replicate 32 0 := by
  refine ⟨?_, ?_, by decide⟩
  · intro h
    unfold processKey
    simp only [maxKeySize]
    split
    · rfl
    · have hl : key.length = 32 := by omega
      simp [copy, make, hl]
  · intro h
    unfold processKey
    simp only [maxKeySize]
    rw [if_neg (by omega)]
    simp only [copy, make, List.length_replicate, List.drop_replicate]
    rw [List.take_of_length_le (by omega)]

theorem processKey_truncate_or_pad_witness :
    processKey [115, 101, 99, 114, 101, 116] =
      [115, 101, 99, 114, 101, 116] ++ List.replicate 26 0 ∧
    processKey (List.replicate 40 7) = List.replicate 32 7 :=
  ⟨(processKey_truncate_or_pad [115, 101, 99, 114, 101, 116]).2.1 (by decide),
   (processKey_truncate_or_pad (List.replicate 40 7)).1 (by decide)⟩

/-- C3: the key `processKey` returns always has 32 bytes and `aes.NewCipher`
accepts it; however `encryptFile` or `decryptFile` ends, it is not with a
key-size error (or a panic); `decryptFile` always ends, and `encryptFile`
ends whenever its output is not its input. -/
theorem processKey_valid_aes256_key (env : Env) (key : List Byte) :
    (processKey key).length = 32 ∧
    NewCipher env.aes (processKey key) = .ok (env.aes (processKey key)) ∧
    (∀ fuel a b e fs2, encryptFile fuel env key a b = some (e, fs2) →
      e ≠ .panicked ∧ ∀ k, e ≠ .returned (some (.KeySizeError k))) ∧
    (∀ fuel a b e fs2, decryptFile fuel env key a b = some (e, fs2) →
      e ≠ .panicked ∧ ∀ k, e ≠ .returned (some (.KeySizeError k))) ∧
    (∀ fuel a b, a ≠ b → ((env.fs.content a).getD []).length < fuel →
      ∃ e fs2, encryptFile fuel env key a b = some (e, fs2)) ∧
    (∀ fuel a b, ((env.fs.content a).getD []).length < fuel + 16 →
      ∃ e fs2, decryptFile fuel env key a b = some (e, fs2)) := by
  refine ⟨processKey_length key, NewCipher_processKey env.aes key, ?_, ?_, ?_, ?_⟩
  · intro fuel a b e fs2 h
    rcases encryptFile_spec fuel env key a b with ⟨hn, _⟩ | ⟨e2, fs3, hE, hp, hk, _⟩
    · rw [hn] at h; cases h
    · rw [hE] at h
      simp only [Option.some.injEq, Prod.mk.injEq] at h
      rw [← h.1]
      exact ⟨hp, hk⟩
  · intro fuel a b e fs2 h
    rcases decryptFile_spec fuel env key a b with ⟨hn, _⟩ | ⟨e2, fs3, hE, hp, hk, _⟩
    · rw [hn] at h; cases h
    · rw [hE] at h
      simp only [Option.some.injEq, Prod.mk.injEq] at h
      rw [← h.1]
      exact ⟨hp, hk⟩
  · intro fuel a b hab hf
    rcases encryptFile_spec fuel env key a b with ⟨_, h | h⟩ | ⟨e2, fs3, hE, _⟩
    · exact absurd h hab
    · omega
    · exact ⟨e2, fs3, hE⟩
  · intro fuel a b hf
    rcases decryptFile_spec fuel env key a b with ⟨_, h⟩ | ⟨e2, fs3, hE, _⟩
    · have h16 : BlockSize = 16 := rfl
      omega
    · exact ⟨e2, fs3, hE⟩

/-- When the output file is the input file, `encryptFile` never returns
`nil`, and it does not end at all if nothing in the environment fails: it
keeps reading what it has just written. -/
theorem encryptFile_same_file (fuel : Nat) (env : Env) (key a : List Byte) :
    (∀ fs2, encryptFile fuel env key a a ≠ some (.returned none, fs2)) ∧
    (env.ioOK → env.rand.noFail → BlockSize ≤ env.rand.data.length →
      env.fs.content a ≠ none → encryptFile fuel env key a a = none) := by
  rcases encryptFile_spec fuel env key a a with ⟨hn, _⟩ | ⟨e, fs3, hE, _, _, hnil, hok⟩
  · exact ⟨(fun fs2 h => by rw [hn] at h; cases h), (fun _ _ _ _ => hn)⟩
  · have hne : e ≠ .returned none := fun he => (hnil he).1 rfl
    refine ⟨?_, ?_⟩
    · intro fs2 h
      rw [hE] at h
      simp only [Option.some.injEq, Prod.mk.injEq] at h
      exact hne h.1
    · intro h1 h2 h3 h4
      exact absurd (hok h1 h2 h3 h4) hne

/-- C9: without an output-file argument, encrypt mode names the output
`inputFile + "_encrypted"`, decrypt mode removes one trailing `"_encrypted"`
when there is one and keeps the name otherwise, and so the decrypt default of
the encrypt default of a name is that name. -/
theorem default_output_naming (key s : List Byte) :
    outputFile false [key, s] = s ++ encryptedSuffix ∧
    (∀ t, s = t ++ encryptedSuffix → outputFile true [key, s] = t) ∧
    (¬ encryptedSuffix <:+ s → outputFile true [key, s] = s) ∧
    outputFile true [key, outputFile false [key, s]] = s := by
  refine ⟨rfl, ?_, ?_, ?_⟩
  · intro t ht
    subst ht
    exact TrimSuffix_append t encryptedSuffix
  · intro hns
    show TrimSuffix s encryptedSuffix = s
    rw [TrimSuffix, if_neg]
    intro h
    exact hns (HasSuffix_isSuffix _ _ h)
  · exact TrimSuffix_append s encryptedSuffix

theorem default_output_naming_witness :
    outputFile false [[107], [97, 46, 116, 120, 116]] =
      [97, 46, 116, 120, 116, 95, 101, 110, 99, 114, 121, 112, 116, 101, 100] ∧
    outputFile true [[107], [97, 46, 116, 120, 116, 95, 101, 110, 99, 114, 121, 112, 116, 101, 100]] =
      [97, 46, 116, 120, 116] ∧
    outputFile true [[107], [97, 46, 116, 120, 116]] = [97, 46, 116, 120, 116] :=
  ⟨(default_output_naming [107] [97, 46, 116, 120, 116]).1,
   (default_output_naming [107] _).2.1 [97, 46, 116, 120, 116] rfl,
   (default_output_naming [107] [97, 46, 116, 120, 116]).2.2.1 (by decide)⟩

theorem init_decrypt (block : BlockFn) (iv : List Byte) :
    cfb.init block iv true = { cfb.init block iv false with decrypt := true } := rfl

/-- What a call that returned `nil` did, from the specification of
`encryptFile`. -/
theorem encryptFile_nil (fuel : Nat) (env : Env) (key a b : List Byte) (fs1 : FS)
    (henc : encryptFile fuel env key a b = some (.returned none, fs1)) :
    a ≠ b ∧ ∃ P iv, env.fs.content a = some P ∧
      generateIV env.rand = some (.ok iv) ∧ iv.length = BlockSize ∧
      fs1.content b =
        some (iv ++ ((cfb.init (env.aes (processKey key)) iv false).runBytes P).2) ∧
      fs1.content a = some P := by
  rcases encryptFile_spec fuel env key a b with ⟨hn, _⟩ | ⟨e, fs3, hE, _, _, hnil, _⟩
  · rw [hn] at henc; cases henc
  · rw [henc] at hE
    simp only [Option.some.injEq, Prod.mk.injEq] at hE
    rw [hE.2]
    exact hnil hE.1.symm

theorem decryptFile_nil (fuel : Nat) (env : Env) (key a b : List Byte) (fs1 : FS)
    (hdec : decryptFile fuel env key a b = some (.returned none, fs1)) :
    a ≠ b ∧ ∃ P, env.fs.content a = some P ∧ BlockSize ≤ P.length ∧
      fs1.content b =
        some ((cfb.init (env.aes (processKey key)) (P.take BlockSize) true).runBytes
                (P.drop BlockSize)).2 ∧
      fs1.content a = some P := by
  rcases decryptFile_spec fuel env key a b with ⟨hn, _⟩ | ⟨e, fs3, hE, _, _, hnil, _⟩
  · rw [hn] at hdec; cases hdec
  · rw [hdec] at hE
    simp only [Option.some.injEq, Prod.mk.injEq] at hE
    rw [hE.2]
    exact hnil hE.1.symm

/-- On another file than its input, with 16 bytes or more to read, enough
fuel and no failing I/O call, `decryptFile` returns `nil`. -/
theorem decryptFile_ok (fuel : Nat) (env : Env) (key a b P : List Byte)
    (hP : env.fs.content a = some P) (hab : a ≠ b) (hio : env.ioOK)
    (hn : BlockSize ≤ P.length) (hfuel : P.length < fuel + BlockSize) :
    ∃ fs2, decryptFile fuel env key a b = some (.returned none, fs2) := by
  rcases decryptFile_spec fuel env key a b with ⟨_, hl⟩ | ⟨e, fs3, hE, _, _, _, hok, _⟩
  · rw [hP] at hl
    simp only [Option.getD_some] at hl
    omega
  · have := hok hio hab (by rw [hP]; exact hn)
    exact ⟨fs3, by rw [hE, this]⟩

/-- C1, as amended: when `encryptFile` returned `nil` having written `C`, then
`decryptFile` with the same passphrase and cipher, on a file holding `C` and
to another file than that one, with no failing I/O call and enough fuel,
returns `nil` and leaves exactly the plaintext in its output file (and the
container as it was), whatever the plaintext, the passphrase, the generated
IV and the sizes of the reads on either side. -/
theorem decrypt_encrypt_roundtrip (fuel fuel2 : Nat) (env env2 : Env)
    (key a b c d P C : List Byte) (fs1 : FS)
    (hP : env.fs.content a = some P)
    (henc : encryptFile fuel env key a b = some (.returned none, fs1))
    (hC : fs1.content b = some C)
    (haes : env2.aes = env.aes) (hin : env2.fs.content c = some C)
    (hcd : c ≠ d) (hio : env2.ioOK) (hfuel : C.length < fuel2 + 16) :
    ∃ fs2, decryptFile fuel2 env2 key c d = some (.returned none, fs2) ∧
      fs2.content d = some P ∧ fs2.content c = some C := by
  obtain ⟨_, P2, iv, hP2, _, hlen, hw, _⟩ := encryptFile_nil fuel env key a b fs1 henc
  rw [hP] at hP2
  cases hP2
  rw [hC] at hw
  simp only [Option.some.injEq] at hw
  have hge : BlockSize ≤ C.length := by
    rw [hw, List.length_append, hlen]; omega
  obtain ⟨fs2, hD⟩ := decryptFile_ok fuel2 env2 key c d C hin hcd hio hge hfuel
  obtain ⟨_, Q, hQ, _, hwd, hQc⟩ := decryptFile_nil fuel2 env2 key c d fs2 hD
  rw [hin] at hQ
  cases hQ
  refine ⟨fs2, hD, ?_, hQc⟩
  rw [hwd, hw, List.take_left' hlen, List.drop_left' hlen, haes, init_decrypt,
    runBytes_mirror _ rfl]

theorem decrypt_encrypt_roundtrip_witness :
    encryptFile 12 (demoEnv [(plainName, helloWorld)] [3, 5] demoIV) secretKey
        plainName containerName
      = some (.returned none, [(containerName, demoContainer), (plainName, helloWorld)]) ∧
    ∃ fs2, decryptFile 12
        (demoEnv [(containerName, demoContainer), (plainName, helloWorld)] [7, 2, 30] [])
        secretKey containerName outName = some (.returned none, fs2) ∧
      fs2.content outName = some helloWorld ∧ fs2.content containerName = some demoContainer :=
  ⟨by decide,
   decrypt_encrypt_roundtrip 12 12 (demoEnv [(plainName, helloWorld)] [3, 5] demoIV)
     (demoEnv [(containerName, demoContainer), (plainName, helloWorld)] [7, 2, 30] [])
     secretKey plainName containerName containerName outName helloWorld demoContainer
     [(containerName, demoContainer), (plainName, helloWorld)]
     (by decide) (by decide) (by decide) rfl (by decide) (by decide) (by decide) (by decide)⟩

/-- C1 fails when `decryptFile` is given its input as its output, which is
what `main` does by default for a container whose name does not end in
`_encrypted`: `os.Create` empties the container before the IV is read, the
call returns `io.EOF`, and the plaintext is not recovered. -/
theorem decrypt_onto_itself_loses_plaintext :
    encryptFile 12 (demoEnv [(plainName, helloWorld)] [3, 5] demoIV) secretKey
        plainName containerName
      = some (.returned none, [(containerName, demoContainer), (plainName, helloWorld)]) ∧
    (demoEnv [(containerName, demoContainer), (plainName, helloWorld)] [7, 2, 30] []).ioOK ∧
    outputFile true [secretKey, containerName] = containerName ∧
    decryptFile 28
        (demoEnv [(containerName, demoContainer), (plainName, helloWorld)] [7, 2, 30] [])
        secretKey containerName (outputFile true [secretKey, containerName])
      = some (.returned (some .EOF), [(containerName, []), (plainName, helloWorld)]) :=
  ⟨by decide, by decide, by decide, by decide⟩

/-- C4: when `encryptFile` returns `nil`, the output file has exactly 16 bytes
more than the plaintext: the ciphertext part is as long as the plaintext. -/
theorem encrypted_file_size (fuel : Nat) (env : Env) (key a b P : List Byte) (fs1 : FS)
    (hP : env.fs.content a = some P)
    (henc : encryptFile fuel env key a b = some (.returned none, fs1)) :
    ∃ C, fs1.content b = some C ∧ C.length = P.length + 16 ∧
      (C.drop 16).length = P.length := by
  obtain ⟨_, P2, iv, hP2, _, hlen, hw, _⟩ := encryptFile_nil fuel env key a b fs1 henc
  rw [hP] at hP2
  cases hP2
  have h16 : BlockSize = 16 := rfl
  refine ⟨_, hw, ?_, ?_⟩
  · rw [List.length_append, runBytes_length, hlen]; omega
  · rw [List.length_drop, List.length_append, runBytes_length, hlen]; omega

theorem encrypted_file_size_witness :
    encryptFile 12 (demoEnv [(plainName, helloWorld)] [3, 5] demoIV) secretKey
        plainName containerName
      = some (.returned none, [(containerName, demoContainer), (plainName, helloWorld)]) ∧
    ∃ C, FS.content [(containerName, demoContainer), (plainName, helloWorld)] containerName
        = some C ∧ C.length = helloWorld.length + 16 ∧ (C.drop 16).length = helloWorld.length :=
  ⟨by decide,
   encrypted_file_size 12 (demoEnv [(plainName, helloWorld)] [3, 5] demoIV) secretKey
     plainName containerName helloWorld
     [(containerName, demoContainer), (plainName, helloWorld)] (by decide) (by decide)⟩

/-- C5: on an input of fewer than 16 bytes `decryptFile` never returns `nil`
and writes nothing (the output file is left untouched or created empty); once
the files are open the error it returns is the one `io.ReadFull` gives for the
IV header, which is `EOF` for the empty file and `ErrUnexpectedEOF` otherwise
when the reads themselves do not fail. -/
theorem truncated_container_rejected (fuel : Nat) (env : Env) (key a b P : List Byte)
    (hP : env.fs.content a = some P) (hlen : P.length < 16) :
    (∃ err fs2, decryptFile fuel env key a b = some (.returned (some err), fs2) ∧
      (fs2 = env.fs ∨ fs2 = env.fs.put b [])) ∧
    (env.openErr = false → env.createErr = false → env.statErr = false →
      ∃ r got err,
        ReadFull { data := ((env.fs.put b []).content a).getD [], sched := env.reads }
          BlockSize = some (r, got, some err) ∧
        decryptFile fuel env key a b = some (.returned (some err), env.fs.put b [])) ∧
    (env.ioOK → decryptFile fuel env key a b =
      some (.returned (some (if a = b ∨ P = [] then .EOF else .ErrUnexpectedEOF)),
        env.fs.put b [])) := by
  have h16 : BlockSize = 16 := rfl
  have hshortP : a = b ∨ ((env.fs.content a).getD []).length < BlockSize := by
    right; rw [hP]; simp only [Option.getD_some]; omega
  have hex : env.fs.content a ≠ none := by rw [hP]; exact fun h => by cases h
  rcases decryptFile_spec fuel env key a b with
    ⟨_, hl⟩ | ⟨e, fs3, hD, hnp, _, _, _, hshort, hhdr⟩
  · rw [hP] at hl
    simp only [Option.getD_some] at hl
    omega
  obtain ⟨hne, hfs⟩ := hshort hshortP
  refine ⟨?_, ?_, ?_⟩
  · cases e with
    | panicked => exact absurd rfl hnp
    | returned err =>
      cases err with
      | none => exact absurd rfl hne
      | some err => exact ⟨err, fs3, hD, hfs⟩
  · intro h1 h2 h3
    obtain ⟨r, got, err, hR, he, hf⟩ := hhdr h1 hex h2 h3 hshortP
    exact ⟨r, got, err, hR, by rw [hD, he, hf]⟩
  · intro hio
    obtain ⟨r, got, err, hR, he, hf⟩ := hhdr hio.1 hex hio.2.1 hio.2.2.1 hshortP
    obtain ⟨r2, got2, err2, hR2, _, _, _, _, _, hkind, _⟩ :=
      ReadFull_spec { data := ((env.fs.put b []).content a).getD [], sched := env.reads }
        BlockSize
    have hdata : ((env.fs.put b []).content a).getD [] = if a = b then [] else P := by
      by_cases hab : a = b
      · subst hab; simp [content_put_same]
      · simp [content_put_other _ _ _ _ hab, hP, hab]
    have hk := hkind hio.2.2.2.1 (by
      simp only [hdata]
      split
      · simp [BlockSize]
      · omega)
    rw [hR] at hR2
    simp only [Option.some.injEq, Prod.mk.injEq] at hR2
    rw [hD, he, hf, hR2.2.2, hk]
    simp only [hdata]
    by_cases hab : a = b
    · simp [hab]
    · simp [hab]

theorem truncated_container_rejected_witness :
    FS.content [(containerName, [1, 2, 3])] containerName = some [1, 2, 3] ∧
    decryptFile 5 (demoEnv [(containerName, [1, 2, 3])] [2] []) secretKey containerName outName
      = some (.returned (some .ErrUnexpectedEOF), [(outName, []), (containerName, [1, 2, 3])]) :=
  ⟨by decide,
   (truncated_container_rejected 5 (demoEnv [(containerName, [1, 2, 3])] [2] []) secretKey
     containerName outName [1, 2, 3] (by decide) (by decide)).2.2 (by decide)⟩

/-- C6: the file a successful `encryptFile` wrote is the generated IV in
clear followed by the one-shot CFB encryption of the plaintext under
`processKey(key)` and that IV; a successful `decryptFile` has used the first
16 bytes of its input as the IV and written the one-shot CFB decryption of
the bytes from offset 16 on. -/
theorem container_framing (fuelE fuelD : Nat) (envE envD : Env)
    (key a b c d P Q : List Byte) (fsE fsD : FS)
    (hP : envE.fs.content a = some P)
    (henc : encryptFile fuelE envE key a b = some (.returned none, fsE))
    (hQ : envD.fs.content c = some Q)
    (hdec : decryptFile fuelD envD key c d = some (.returned none, fsD)) :
    (∃ iv stream st body C,
      generateIV envE.rand = some (.ok iv) ∧ iv.length = 16 ∧
      NewCFBEncrypter (envE.aes (processKey key)) iv = some stream ∧
      stream.XORKeyStream P = some (st, body) ∧
      fsE.content b = some C ∧
      C = iv ++ body ∧ C.take 16 = iv ∧ C.drop 16 = body) ∧
    (∃ stream st W,
      NewCFBDecrypter (envD.aes (processKey key)) (Q.take 16) = some stream ∧
      stream.XORKeyStream (Q.drop 16) = some (st, W) ∧
      fsD.content d = some W) := by
  constructor
  · obtain ⟨_, P2, iv, hP2, hG, hlen, hw, _⟩ := encryptFile_nil fuelE envE key a b fsE henc
    rw [hP] at hP2
    cases hP2
    refine ⟨iv, _, _, _, _, hG, hlen, newCFB_init _ _ _ hlen,
      XORKeyStream_eq _ (init_WF _ _ _ hlen) _, hw, rfl, ?_, ?_⟩
    · exact List.take_left' hlen
    · exact List.drop_left' hlen
  · obtain ⟨_, Q2, hQ2, hge, hw, _⟩ := decryptFile_nil fuelD envD key c d fsD hdec
    rw [hQ] at hQ2
    cases hQ2
    have hlen : (Q.take 16).length = BlockSize := by
      have h16 : BlockSize = 16 := rfl
      rw [List.length_take]; omega
    refine ⟨_, ((cfb.init (envD.aes (processKey key)) (Q.take 16) true).runBytes
      (Q.drop 16)).1, _, newCFB_init _ _ _ hlen, ?_, hw⟩
    rw [XORKeyStream_eq _ (init_WF _ _ _ hlen)]
    rfl

theorem container_framing_witness :
    encryptFile 12 (demoEnv [(plainName, helloWorld)] [3, 5] demoIV) secretKey
        plainName containerName
      = some (.returned none, [(containerName, demoContainer), (plainName, helloWorld)]) ∧
    decryptFile 12 (demoEnv [(containerName, demoContainer)] [7, 2, 30] []) secretKey
        containerName outName
      = some (.returned none, [(outName, helloWorld), (containerName, demoContainer)]) ∧
    (∃ iv stream st body C,
      generateIV (demoEnv [(plainName, helloWorld)] [3, 5] demoIV).rand = some (.ok iv) ∧
      iv.length = 16 ∧
      NewCFBEncrypter (demoAES (processKey secretKey)) iv = some stream ∧
      stream.XORKeyStream helloWorld = some (st, body) ∧
      FS.content [(containerName, demoContainer), (plainName, helloWorld)] containerName
        = some C ∧
      C = iv ++ body ∧ C.take 16 = iv ∧ C.drop 16 = body) :=
  ⟨by decide, by decide,
   (container_framing 12 12 (demoEnv [(plainName, helloWorld)] [3, 5] demoIV)
     (demoEnv [(containerName, demoContainer)] [7, 2, 30] [])
     secretKey plainName containerName containerName outName helloWorld demoContainer
     [(containerName, demoContainer), (plainName, helloWorld)]
     [(outName, helloWorld), (containerName, demoContainer)]
     (by decide) (by decide) (by decide) (by decide)).1⟩

/-- C8, as amended: `decryptFile` checks no integrity: on every input file of
`n ≥ 16` bytes that is not also its output file, and with every passphrase,
when no I/O call fails (and the fuel suffices), it returns `nil` and leaves
exactly `n - 16` bytes in the output file. -/
theorem decrypt_any_key_succeeds (fuel : Nat) (env : Env) (key a b P : List Byte)
    (hP : env.fs.content a = some P) (hab : a ≠ b) (hio : env.ioOK)
    (hn : 16 ≤ P.length) (hfuel : P.length < fuel + 16) :
    ∃ fs2 W, decryptFile fuel env key a b = some (.returned none, fs2) ∧
      fs2.content b = some W ∧ W.length = P.length - 16 := by
  obtain ⟨fs2, hD⟩ := decryptFile_ok fuel env key a b P hP hab hio hn hfuel
  obtain ⟨_, Q, hQ, _, hw, _⟩ := decryptFile_nil fuel env key a b fs2 hD
  rw [hP] at hQ
  cases hQ
  refine ⟨fs2, _, hD, hw, ?_⟩
  rw [runBytes_length, List.length_drop]
  rfl

theorem decrypt_any_key_succeeds_witness :
    decryptFile 12 (demoEnv [(containerName, demoContainer)] [7, 2, 30] []) otherKey
        containerName outName
      = some (.returned none,
          [(outName, [72, 69, 76, 76, 79, 0, 87, 79, 82, 76, 68]),
           (containerName, demoContainer)]) ∧
    ∃ fs2 W, decryptFile 12 (demoEnv [(containerName, demoContainer)] [7, 2, 30] []) otherKey
        containerName outName = some (.returned none, fs2) ∧
      fs2.content outName = some W ∧ W.length = demoContainer.length - 16 :=
  ⟨by decide,
   decrypt_any_key_succeeds 12 (demoEnv [(containerName, demoContainer)] [7, 2, 30] [])
     otherKey containerName outName demoContainer
     (by decide) (by decide) (by decide) (by decide) (by decide)⟩

/-- C8 fails when the output file is the input file, as it is by default for
`-d key a.bin`: the 27-byte container is emptied by `os.Create`, no system
call fails, and `decryptFile` returns `io.EOF` having written nothing. -/
theorem decrypt_same_file_fails :
    FS.content [(containerName, demoContainer)] containerName = some demoContainer ∧
    16 ≤ demoContainer.length ∧
    (demoEnv [(containerName, demoContainer)] [] []).ioOK ∧
    outputFile true [otherKey, containerName] = containerName ∧
    decryptFile 28 (demoEnv [(containerName, demoContainer)] [] []) otherKey
        containerName (outputFile true [otherKey, containerName])
      = some (.returned (some .EOF), [(containerName, [])]) :=
  ⟨by decide, by decide, by decide, by decide, by decide⟩

/-- C10: for every key, IV, direction and input, when no read or write fails,
every run of the read-transform-write loop that ends returns `nil` having
written the one-shot `XORKeyStream` transform of the whole input, whatever
the sizes of the reads (each clamped by `Read` to between 1 and `bufferSize`
bytes); and the loop does end, given fuel for one pass per byte and one
more, when the file it reads is not the file it writes. -/
theorem chunk_split_independence (block : BlockFn) (iv : List Byte) (decrypt : Bool)
    (stream : cfb) (inp out : File) (s : Sys) (D O : List Byte) (sizes : List Nat)
    (hs : newCFB block iv decrypt = some stream)
    (hD : s.fs.content inp.name = some D) (hO : s.fs.content out.name = some O)
    (hoff : out.off = O.length)
    (hr : s.reads = sizes.map .short) (hw : writesOK s.writes) :
    ∃ st body, stream.XORKeyStream (D.drop inp.off) = some (st, body) ∧
      (∀ fuel e s2, streamLoop fuel stream inp out s = some (e, s2) →
        e = .returned none ∧ s2.fs.content out.name = some (O ++ body)) ∧
      (inp.name ≠ out.name → ∀ fuel, (D.drop inp.off).length < fuel →
        ∃ s2, streamLoop fuel stream inp out s = some (.returned none, s2)) := by
  have hwf := newCFB_WF _ _ _ _ hs
  have hrok : readsOK s.reads := by
    rw [hr]; simp [readsOK]
  refine ⟨_, _, XORKeyStream_eq stream hwf _, ?_, ?_⟩
  · intro fuel e s2 hS
    have he := (streamLoop_exit fuel stream hwf inp out s e s2 hS).2.2 hrok hw
    subst he
    refine ⟨rfl, ?_⟩
    by_cases hne : inp.name = out.name
    · by_cases hin : inp.off < O.length
      · exact absurd hS (streamLoop_alias fuel stream hwf inp out s O hne hO hoff hin s2)
      · have hDO : D = O := by
          rw [hne, hO] at hD
          simpa using hD.symm
        have hnil : D.drop inp.off = [] := by
          rw [hDO]; exact List.drop_eq_nil_of_le (by omega)
        have hview : (inp.reader s).data = [] := by
          simp [File.reader, hD, hnil]
        cases fuel with
        | zero => simp [streamLoop] at hS
        | succ fuel =>
          rcases streamLoop_step fuel stream hwf inp out s with
            ⟨hnf, _⟩ | ⟨_, hE⟩ | ⟨chunk, hcne, happ, _⟩
          · exact absurd hrok hnf
          · rw [hE] at hS
            simp only [Option.some.injEq, Prod.mk.injEq, true_and] at hS
            rw [← hS, hnil]
            simp [cfb.runBytes, hO]
          · rw [hview] at happ
            simp at happ
            exact absurd happ hcne
    · exact ((streamLoop_distinct fuel stream hwf inp out s D O hne hD hO hoff).2 s2 hS).1
  · intro hne fuel hf
    obtain ⟨e, s2, hS⟩ :=
      (streamLoop_distinct fuel stream hwf inp out s D O hne hD hO hoff).1 hf
    have he := (streamLoop_exit fuel stream hwf inp out s e s2 hS).2.2 hrok hw
    exact ⟨s2, by rw [hS, he]⟩

theorem chunk_split_independence_witness :
    newCFB (demoAES (processKey secretKey)) demoIV false
      = some (cfb.init (demoAES (processKey secretKey)) demoIV false) ∧
    writesOK [] ∧
    (streamLoop 39 (cfb.init (demoAES (processKey secretKey)) demoIV false)
        { name := plainName, off := 0 } { name := outName, off := 0 }
        { fs := [(outName, []), (plainName, longPlain)]
          reads := [1, 15, 17, 2].map .short, writes := [] }).map
      (fun r => (r.1, r.2.fs.content outName))
      = some (.returned none, some (longContainerA.drop 16)) ∧
    ∃ st body, (cfb.init (demoAES (processKey secretKey)) demoIV false).XORKeyStream
        (longPlain.drop 0) = some (st, body) ∧
      (∀ fuel e s2, streamLoop fuel (cfb.init (demoAES (processKey secretKey)) demoIV false)
          { name := plainName, off := 0 } { name := outName, off := 0 }
          { fs := [(outName, []), (plainName, longPlain)]
            reads := [1, 15, 17, 2].map .short, writes := [] } = some (e, s2) →
        e = .returned none ∧ s2.fs.content outName = some ([] ++ body)) ∧
      (plainName ≠ outName → ∀ fuel, (longPlain.drop 0).length < fuel →
        ∃ s2, streamLoop fuel (cfb.init (demoAES (processKey secretKey)) demoIV false)
          { name := plainName, off := 0 } { name := outName, off := 0 }
          { fs := [(outName, []), (plainName, longPlain)]
            reads := [1, 15, 17, 2].map .short, writes := [] } = some (.returned none, s2)) :=
  ⟨rfl, by decide, by decide,
   chunk_split_independence (demoAES (processKey secretKey)) demoIV false _
     { name := plainName, off := 0 } { name := outName, off := 0 }
     { fs := [(outName, []), (plainName, longPlain)]
       reads := [1, 15, 17, 2].map .short, writes := [] }
     longPlain [] [1, 15, 17, 2] rfl (by decide) (by decide) rfl rfl (by decide)⟩

theorem xor_left_cancel (p x y : Byte) (h : p ^^^ x = p ^^^ y) : x = y := by
  have hx : (x ^^^ p) ^^^ p = x := xor_cancel x p
  have hy : (y ^^^ p) ^^^ p = y := xor_cancel y p
  have hc : ∀ a b : Byte, a ^^^ b = b ^^^ a := by
    intro a b
    cases a with | mk a => cases b with | mk b =>
    show UInt8.mk (a ^^^ b) = UInt8.mk (b ^^^ a)
    rw [BitVec.xor_comm]
  rw [← hx, ← hy, hc x p, hc y p, h]

theorem XORBytes_left_cancel (s a b : List Byte) (ha : s.length = a.length)
    (hb : s.length = b.length) (h : XORBytes s a = XORBytes s b) : a = b := by
  induction s generalizing a b with
  | nil =>
    have h1 : a = [] := List.length_eq_zero.mp ha.symm
    have h2 : b = [] := List.length_eq_zero.mp hb.symm
    rw [h1, h2]
  | cons p ps ih =>
    cases a with
    | nil => simp at ha
    | cons x xs =>
      cases b with
      | nil => simp at hb
      | cons y ys =>
        simp only [XORBytes, List.zipWith_cons_cons, List.cons.injEq] at h
        have := ih xs ys (by simpa using ha) (by simpa using hb) h.2
        rw [xor_left_cancel p x y h.1, this]

/-- The first block of ciphertext is the plaintext xor-ed with the encrypted
IV. -/
theorem runBytes_init_first_block (block : BlockFn) (iv s : List Byte)
    (hiv : iv.length = BlockSize) (hE : (block iv).length = BlockSize)
    (hs : s.length = BlockSize) :
    ((cfb.init block iv false).runBytes s).2 = XORBytes s (block iv) := by
  have hpos : s ≠ [] := by
    intro h; rw [h] at hs; cases hs
  obtain ⟨p, ps, rfl⟩ := List.exists_cons_of_ne_nil hpos
  have hwf := init_WF block iv false hiv
  have hc : copy (make BlockSize) (block iv) = block iv := by
    simp [copy, make, hE]
  have hre : (cfb.init block iv false).refill =
      { b := block, next := iv, out := block iv, outUsed := 0, decrypt := false } := by
    simp only [cfb.refill, cfb.init, hc]
    simp [make]
  rw [← runBytes_refill _ hwf p ps,
    runBytes_block _ _ (refill_WF _ hwf) (by rw [hre]; simp only [hs]; omega), hre]
  rfl

/-- C7, as amended: two successful encryptions of the same plaintext under the
same passphrase write ciphertext bodies of equal length; when moreover the
generated IVs differ, the plaintext has at least one block (16 bytes) and the
block function is injective on 16-byte blocks (as AES is), the two bodies
differ. -/
theorem different_iv_different_body (fuelA fuelB : Nat) (envA envB : Env)
    (key aA bA aB bB P CA CB ivA ivB : List Byte) (fsA fsB : FS)
    (hPA : envA.fs.content aA = some P) (hPB : envB.fs.content aB = some P)
    (hA : encryptFile fuelA envA key aA bA = some (.returned none, fsA))
    (hB : encryptFile fuelB envB key aB bB = some (.returned none, fsB))
    (hCA : fsA.content bA = some CA) (hCB : fsB.content bB = some CB)
    (haes : envB.aes = envA.aes)
    (hivA : generateIV envA.rand = some (.ok ivA))
    (hivB : generateIV envB.rand = some (.ok ivB)) :
    (CA.drop 16).length = (CB.drop 16).length ∧
    (ivA ≠ ivB → 16 ≤ P.length →
      (∀ a, a.length = 16 → (envA.aes (processKey key) a).length = 16) →
      (∀ a b, a.length = 16 → b.length = 16 →
        envA.aes (processKey key) a = envA.aes (processKey key) b → a = b) →
      CA.drop 16 ≠ CB.drop 16) := by
  obtain ⟨_, P1, iv1, hP1, hG1, hl1, hw1, _⟩ := encryptFile_nil fuelA envA key aA bA fsA hA
  obtain ⟨_, P2, iv2, hP2, hG2, hl2, hw2, _⟩ := encryptFile_nil fuelB envB key aB bB fsB hB
  rw [hPA] at hP1
  rw [hPB] at hP2
  cases hP1
  cases hP2
  rw [hivA] at hG1
  rw [hivB] at hG2
  simp only [Option.some.injEq, Except.ok.injEq] at hG1 hG2
  subst hG1 hG2
  rw [hCA] at hw1
  rw [hCB, haes] at hw2
  simp only [Option.some.injEq] at hw1 hw2
  have h16 : BlockSize = 16 := rfl
  rw [h16] at hl1 hl2
  have hdA : CA.drop 16 =
      ((cfb.init (envA.aes (processKey key)) ivA false).runBytes P).2 := by
    rw [hw1]; exact List.drop_left' hl1
  have hdB : CB.drop 16 =
      ((cfb.init (envA.aes (processKey key)) ivB false).runBytes P).2 := by
    rw [hw2]; exact List.drop_left' hl2
  refine ⟨by rw [hdA, hdB, runBytes_length, runBytes_length], ?_⟩
  intro hne hlen hE hinj heq
  rw [hdA, hdB, ← List.take_append_drop 16 P, runBytes_append, runBytes_append] at heq
  have htl : (P.take 16).length = BlockSize := by
    rw [List.length_take, h16]; omega
  have hfirst := List.append_inj_left heq (by rw [runBytes_length, runBytes_length])
  rw [runBytes_init_first_block _ _ _ hl1 (hE _ hl1) htl,
    runBytes_init_first_block _ _ _ hl2 (hE _ hl2) htl] at hfirst
  have := XORBytes_left_cancel _ _ _ (by rw [htl, hE _ hl1]; rfl) (by rw [htl, hE _ hl2]; rfl) hfirst
  exact hne (hinj _ _ hl1 hl2 this)

theorem demoAES_length (key a : List Byte) : (demoAES key a).length = a.length := by
  simp [demoAES]

theorem demoAES_injective (key a b : List Byte) (h : demoAES key a = demoAES key b) : a = b := by
  simp only [demoAES, List.reverse_inj] at h
  have hf : Function.Injective (fun x : Byte => x ^^^ key.headD 0) := by
    intro x y hxy
    have hx := xor_cancel x (key.headD 0)
    have hy := xor_cancel y (key.headD 0)
    simp only at hxy
    rw [← hx, ← hy, hxy]
  exact List.map_injective_iff.mpr hf h

theorem different_iv_different_body_witness :
    encryptFile 40 (demoEnv [(plainName, longPlain)] [3, 5] demoIV) secretKey
        plainName containerName
      = some (.returned none, [(containerName, longContainerA), (plainName, longPlain)]) ∧
    encryptFile 40 (demoEnv [(plainName, longPlain)] [] (0 :: demoIV)) secretKey
        plainName containerName
      = some (.returned none, [(containerName, longContainerB), (plainName, longPlain)]) ∧
    (longContainerA.drop 16).length = (longContainerB.drop 16).length ∧
    longContainerA.drop 16 ≠ longContainerB.drop 16 :=
  ⟨by decide, by decide,
   (different_iv_different_body 40 40 (demoEnv [(plainName, longPlain)] [3, 5] demoIV)
     (demoEnv [(plainName, longPlain)] [] (0 :: demoIV)) secretKey
     plainName containerName plainName containerName longPlain
     longContainerA longContainerB demoIV
     [0, 16, 32, 48, 64, 80, 96, 112, 128, 144, 160, 176, 192, 208, 224, 240]
     [(containerName, longContainerA), (plainName, longPlain)]
     [(containerName, longContainerB), (plainName, longPlain)]
     (by decide) (by decide) (by decide) (by decide) (by decide) (by decide) rfl rfl rfl).1,
   (different_iv_different_body 40 40 (demoEnv [(plainName, longPlain)] [3, 5] demoIV)
     (demoEnv [(plainName, longPlain)] [] (0 :: demoIV)) secretKey
     plainName containerName plainName containerName longPlain
     longContainerA longContainerB demoIV
     [0, 16, 32, 48, 64, 80, 96, 112, 128, 144, 160, 176, 192, 208, 224, 240]
     [(containerName, longContainerA), (plainName, longPlain)]
     [(containerName, longContainerB), (plainName, longPlain)]
     (by decide) (by decide) (by decide) (by decide) (by decide) (by decide) rfl rfl rfl).2
     (by decide) (by decide)
     (fun a ha => by rw [← ha]; exact demoAES_length _ a)
     (fun a b _ _ h => demoAES_injective _ a b h)⟩

/-- C7 fails on the empty plaintext: two successful encryptions under the same
passphrase whose generated IVs differ both write an empty ciphertext body. -/
theorem equal_bodies_on_empty_plaintext :
    encryptFile 1 (demoEnv [(plainName, [])] [] demoIV) secretKey plainName containerName
      = some (.returned none, [(containerName, demoIV ++ []), (plainName, [])]) ∧
    encryptFile 1 (demoEnv [(plainName, [])] [] (List.replicate 16 0)) secretKey
        plainName containerName
      = some (.returned none, [(containerName, List.replicate 16 0 ++ []), (plainName, [])]) ∧
    generateIV (demoEnv [(plainName, [])] [] demoIV).rand = some (.ok demoIV) ∧
    generateIV (demoEnv [(plainName, [])] [] (List.replicate 16 0)).rand
      = some (.ok (List.replicate 16 0)) ∧
    demoIV ≠ List.replicate 16 0 ∧
    (demoIV ++ []).drop 16 = (List.replicate 16 0 ++ ([] : List Byte)).drop 16 :=
  ⟨by decide, by decide, rfl, rfl, by decide, by decide⟩

/-- With a plaintext shorter than a block the bodies can be equal although the
block function is injective: the one byte of ciphertext only depends on the
first byte of the encrypted IV. -/
theorem equal_bodies_on_short_plaintext :
    encryptFile 2 (demoEnv [(plainName, [7])] [] (List.replicate 16 0)) secretKey
        plainName containerName
      = some (.returned none,
          [(containerName, List.replicate 16 0 ++ [116]), (plainName, [7])]) ∧
    encryptFile 2 (demoEnv [(plainName, [7])] [] (1 :: List.replicate 15 0)) secretKey
        plainName containerName
      = some (.returned none,
          [(containerName, (1 :: List.replicate 15 0) ++ [116]), (plainName, [7])]) ∧
    (List.replicate 16 0 : List Byte) ≠ 1 :: List.replicate 15 0 :=
  ⟨by decide, by decide, by decide⟩

/-- Whenever the output is not the input, the input exists, the fuel exceeds
its length, nothing in the environment fails and `rand.Reader` supplies 16
bytes, `encryptFile` returns `nil`. -/
theorem encryptFile_succeeds (fuel : Nat) (env : Env) (key a b P : List Byte)
    (hP : env.fs.content a = some P) (hab : a ≠ b) (hfuel : P.length < fuel)
    (hio : env.ioOK) (hr : env.rand.noFail) (hl : 16 ≤ env.rand.data.length) :
    ∃ fs2, encryptFile fuel env key a b = some (.returned none, fs2) := by
  rcases encryptFile_spec fuel env key a b with ⟨_, h | h⟩ | ⟨e, fs3, hE, _, _, _, hok⟩
  · exact absurd h hab
  · rw [hP] at h
    simp only [Option.getD_some] at h
    omega
  · exact ⟨fs3, by rw [hE, hok hio hr hl (by rw [hP]; exact fun h => by cases h)]⟩

end EncryptFile
